import Mathlib

/-!
Verification of the splitwiser bill-splitting engine
(`backend/internal/calculator/split.go` and
`backend/internal/calculator/balances.go`).

Go `float64` amounts are modelled as exact rationals (`ℚ`); Go maps keyed by
participant name are modelled as association lists in insertion order.  The
`debts` nested map built by `CalculateGroupBalances` in the source never
influences the returned values, so it is not modelled.
-/

namespace Splitwiser

/-- One person's share of one item (source: `PersonItem`). -/
structure PersonItem where
  Description : String
  Amount : ℚ
deriving DecidableEq, Repr

/-- The calculated split for one person (source: `PersonSplit`). -/
structure PersonSplit where
  Subtotal : ℚ
  Tax : ℚ
  Total : ℚ
  Items : List PersonItem
deriving DecidableEq, Repr

/-- A single item on the bill (source: `Item`). -/
structure Item where
  Description : String
  Amount : ℚ
  Participants : List String
deriving DecidableEq, Repr

/-- The `map[string]*PersonSplit` of the source, as an association list in
insertion order. -/
abbrev Splits := List (String × PersonSplit)

/-- The zero split each participant is initialized with. -/
def emptySplit : PersonSplit := ⟨0, 0, 0, []⟩

/-- Does the map have an entry with this key? -/
def hasKey : Splits → String → Bool
  | [], _ => false
  | e :: t, p => if e.1 = p then true else hasKey t p

/-- Go map lookup `splits[p]`. -/
def lookupKey : Splits → String → Option PersonSplit
  | [], _ => none
  | e :: t, p => if e.1 = p then some e.2 else lookupKey t p

/-- Go map assignment `splits[p] = v`: overwrite the entry if the key is
present, append it otherwise. -/
def setKey (s : Splits) (p : String) (v : PersonSplit) : Splits :=
  if hasKey s p then
    s.map (fun e => if e.1 = p then (e.1, v) else e)
  else s ++ [(p, v)]

/-- The initialization loop: `for _, p := range participants { splits[p] = ... }`. -/
def initSplits (participants : List String) : Splits :=
  participants.foldl (fun s p => setKey s p emptySplit) []

/-- Go's `if split, exists := splits[person]; exists { mutate split }`:
update the entry when the key is present, do nothing otherwise. -/
def updateKey (s : Splits) (p : String) (f : PersonSplit → PersonSplit) : Splits :=
  s.map (fun e => if e.1 = p then (e.1, f e.2) else e)

/-- One iteration of the items loop of `CalculateSplit`: skip items with no
participants, otherwise add the item's amount to the running `itemsTotal` and
credit each named (and known) participant with a per-person share. -/
def applyItem (acc : ℚ × Splits) (item : Item) : ℚ × Splits :=
  if item.Participants.isEmpty then acc
  else
    let perPersonAmount := item.Amount / (item.Participants.length : ℚ)
    (acc.1 + item.Amount,
      item.Participants.foldl
        (fun s person => updateKey s person (fun sp =>
          { sp with
              Subtotal := sp.Subtotal + perPersonAmount,
              Items := sp.Items ++ [⟨item.Description, perPersonAmount⟩] })) acc.2)

/-- The whole items loop: returns the accumulated `itemsTotal` and the
updated splits. -/
def itemizedStage (items : List Item) (splits : Splits) : ℚ × Splits :=
  items.foldl applyItem (0, splits)

/-- `CalculateSplit` from `split.go`, translated clause by clause. -/
def CalculateSplit (items : List Item) (billTotal billSubtotal : ℚ)
    (participants : List String) : Except String Splits :=
  if billSubtotal = 0 then .error "subtotal cannot be zero"
  else if participants.isEmpty then .error "must have at least one participant"
  else
    let tax := billTotal - billSubtotal
    let splits := initSplits participants
    if items.isEmpty then
      .ok (splits.map fun e =>
        (e.1, { e.2 with
                  Subtotal := billSubtotal / (participants.length : ℚ),
                  Tax := tax / (participants.length : ℚ),
                  Total := billTotal / (participants.length : ℚ) }))
    else
      let stage := itemizedStage items splits
      let withRemainder :=
        if stage.1 < billSubtotal then
          let perPersonShare := (billSubtotal - stage.1) / (participants.length : ℚ)
          stage.2.map fun e =>
            (e.1, { e.2 with
                      Subtotal := e.2.Subtotal + perPersonShare,
                      Items := e.2.Items ++ [⟨"Shared", perPersonShare⟩] })
        else stage.2
      .ok (withRemainder.map fun e =>
        (e.1, { e.2 with
                  Tax := e.2.Subtotal * (tax / billSubtotal),
                  Total := e.2.Subtotal + e.2.Subtotal * (tax / billSubtotal) }))

/-- The keys of a splits map, in insertion order. -/
def splitKeys (s : Splits) : List String := s.map Prod.fst

/-- Sum of the per-person subtotal shares. -/
def subtotalSum (s : Splits) : ℚ := (s.map fun e => e.2.Subtotal).sum

/-- Sum of the per-person total shares. -/
def totalSum (s : Splits) : ℚ := (s.map fun e => e.2.Total).sum

/-- The `itemsTotal` accumulated by the items loop: the amounts of the items
that name at least one participant. -/
def itemizedTotal (items : List Item) : ℚ :=
  ((items.filter fun i => !i.Participants.isEmpty).map Item.Amount).sum

/-- The part of the itemized amounts that is silently dropped because it is
assigned to people outside the bill's participant list. -/
def droppedShare (items : List Item) (participants : List String) : ℚ :=
  ((items.filter fun i => !i.Participants.isEmpty).map fun i =>
    (((i.Participants.filter fun q => !participants.contains q).length : ℚ)) *
      (i.Amount / (i.Participants.length : ℚ))).sum

/-! ### Basic association-list lemmas -/

theorem hasKey_iff {s : Splits} {p : String} : hasKey s p = true ↔ p ∈ splitKeys s := by
  induction s with
  | nil => simp [hasKey, splitKeys]
  | cons e t ih =>
    by_cases h : e.1 = p
    · simp [hasKey, splitKeys, h]
    · simp only [hasKey, splitKeys, if_neg h, List.map_cons, List.mem_cons] at *
      constructor
      · intro hp
        exact Or.inr (ih.mp hp)
      · rintro (hp | hp)
        · exact absurd hp.symm h
        · exact ih.mpr hp

theorem lookupKey_isSome_iff {s : Splits} {p : String} :
    (lookupKey s p).isSome = true ↔ p ∈ splitKeys s := by
  induction s with
  | nil => simp [lookupKey, splitKeys]
  | cons e t ih =>
    by_cases h : e.1 = p
    · simp [lookupKey, splitKeys, h]
    · simp only [lookupKey, splitKeys, if_neg h, List.map_cons, List.mem_cons] at *
      rw [ih]
      constructor
      · exact Or.inr
      · rintro (hp | hp)
        · exact absurd hp.symm h
        · exact hp

theorem splitKeys_updateKey (s : Splits) (p : String) (f : PersonSplit → PersonSplit) :
    splitKeys (updateKey s p f) = splitKeys s := by
  induction s with
  | nil => rfl
  | cons e t ih =>
    by_cases h : e.1 = p <;> simp [updateKey, splitKeys, h] <;>
      simpa [updateKey, splitKeys] using ih

theorem updateKey_of_not_mem {s : Splits} {p : String} (f : PersonSplit → PersonSplit)
    (h : p ∉ splitKeys s) : updateKey s p f = s := by
  induction s with
  | nil => rfl
  | cons e t ih =>
    simp only [splitKeys, List.map_cons, List.mem_cons, not_or] at h
    simp only [updateKey, List.map_cons]
    rw [if_neg (fun he => h.1 he.symm)]
    have := ih (by simpa [splitKeys] using h.2)
    simpa [updateKey] using congrArg (e :: ·) this

theorem lookupKey_map {s : Splits} (g : PersonSplit → PersonSplit) (p : String) :
    lookupKey (s.map fun e => (e.1, g e.2)) p = (lookupKey s p).map g := by
  induction s with
  | nil => rfl
  | cons e t ih =>
    by_cases h : e.1 = p <;> simp [lookupKey, h, ih]

theorem splitKeys_map (s : Splits) (g : PersonSplit → PersonSplit) :
    splitKeys (s.map fun e => (e.1, g e.2)) = splitKeys s := by
  induction s with
  | nil => rfl
  | cons e t ih => simpa [splitKeys] using ih

/-! ### Lemmas about `setKey` and `initSplits` -/

theorem splitKeys_overwrite (s : Splits) (p : String) (v : PersonSplit) :
    splitKeys (s.map fun e => if e.1 = p then (e.1, v) else e) = splitKeys s := by
  induction s with
  | nil => rfl
  | cons e t ih =>
    by_cases he : e.1 = p <;> simp [splitKeys, he] <;> simpa [splitKeys] using ih

theorem splitKeys_setKey (s : Splits) (p : String) (v : PersonSplit) :
    splitKeys (setKey s p v) =
      if p ∈ splitKeys s then splitKeys s else splitKeys s ++ [p] := by
  by_cases h : p ∈ splitKeys s
  · rw [if_pos h]
    unfold setKey
    rw [if_pos (hasKey_iff.mpr h)]
    exact splitKeys_overwrite s p v
  · rw [if_neg h]
    unfold setKey
    rw [if_neg (by simpa using (fun hc => h (hasKey_iff.mp hc)))]
    simp [splitKeys]

theorem mem_splitKeys_foldl_setKey (ps : List String) :
    ∀ (s : Splits) (p : String),
      p ∈ splitKeys (ps.foldl (fun s p => setKey s p emptySplit) s) ↔
        p ∈ splitKeys s ∨ p ∈ ps := by
  induction ps with
  | nil => simp
  | cons q qs ih =>
    intro s p
    simp only [List.foldl_cons, ih, splitKeys_setKey, List.mem_cons]
    by_cases hq : q ∈ splitKeys s
    · rw [if_pos hq]
      constructor
      · rintro (hp | hp)
        · exact Or.inl hp
        · exact Or.inr (Or.inr hp)
      · rintro (hp | hp | hp)
        · exact Or.inl hp
        · exact Or.inl (hp ▸ hq)
        · exact Or.inr hp
    · rw [if_neg hq]
      simp only [List.mem_append, List.mem_singleton]
      tauto

theorem nodup_splitKeys_foldl_setKey (ps : List String) :
    ∀ (s : Splits), (splitKeys s).Nodup →
      (splitKeys (ps.foldl (fun s p => setKey s p emptySplit) s)).Nodup := by
  induction ps with
  | nil => intro s hs; simpa using hs
  | cons q qs ih =>
    intro s hs
    simp only [List.foldl_cons]
    apply ih
    rw [splitKeys_setKey]
    by_cases hq : q ∈ splitKeys s
    · rwa [if_pos hq]
    · rw [if_neg hq]
      simpa [List.nodup_append] using ⟨hs, hq⟩

theorem mem_splitKeys_initSplits {ps : List String} {p : String} :
    p ∈ splitKeys (initSplits ps) ↔ p ∈ ps := by
  unfold initSplits
  rw [mem_splitKeys_foldl_setKey]
  simp [splitKeys]

theorem nodup_splitKeys_initSplits (ps : List String) :
    (splitKeys (initSplits ps)).Nodup := by
  unfold initSplits
  exact nodup_splitKeys_foldl_setKey ps [] (by simp [splitKeys])

theorem splitKeys_foldl_setKey_of_disjoint (ps : List String) :
    ∀ (s : Splits), ps.Nodup → (∀ p ∈ ps, p ∉ splitKeys s) →
      splitKeys (ps.foldl (fun s p => setKey s p emptySplit) s) = splitKeys s ++ ps := by
  induction ps with
  | nil => simp
  | cons q qs ih =>
    intro s hnd hdisj
    simp only [List.foldl_cons]
    have hq : q ∉ splitKeys s := hdisj q (by simp)
    have hkeys : splitKeys (setKey s q emptySplit) = splitKeys s ++ [q] := by
      rw [splitKeys_setKey, if_neg hq]
    rw [ih (setKey s q emptySplit) hnd.of_cons, hkeys]
    · simp
    · intro p hp
      rw [hkeys]
      simp only [List.mem_append, List.mem_singleton, not_or]
      exact ⟨hdisj p (by simp [hp]), fun hpq => (List.nodup_cons.mp hnd).1 (hpq ▸ hp)⟩

theorem splitKeys_initSplits_of_nodup {ps : List String} (h : ps.Nodup) :
    splitKeys (initSplits ps) = ps := by
  unfold initSplits
  rw [splitKeys_foldl_setKey_of_disjoint ps [] h (by simp [splitKeys])]
  rfl

theorem initSplits_values (ps : List String) :
    ∀ e ∈ initSplits ps, e.2 = emptySplit := by
  unfold initSplits
  suffices h : ∀ (s : Splits), (∀ e ∈ s, e.2 = emptySplit) →
      ∀ e ∈ ps.foldl (fun s p => setKey s p emptySplit) s, e.2 = emptySplit by
    exact h [] (by simp)
  induction ps with
  | nil => intro s hs; simpa using hs
  | cons q qs ih =>
    intro s hs
    simp only [List.foldl_cons]
    apply ih
    intro e he
    unfold setKey at he
    by_cases hq : hasKey s q
    · rw [if_pos hq] at he
      obtain ⟨a, ha, rfl⟩ := List.mem_map.mp he
      by_cases h1 : a.1 = q
      · simp [h1]
      · simpa [h1] using hs a ha
    · rw [if_neg hq] at he
      rcases List.mem_append.mp he with h1 | h1
      · exact hs e h1
      · simpa using List.mem_singleton.mp h1 ▸ rfl

/-! ### Sum lemmas for the items loop -/

theorem subtotalSum_updateKey {s : Splits} (hnd : (splitKeys s).Nodup)
    {f : PersonSplit → PersonSplit} {a : ℚ}
    (hf : ∀ sp, (f sp).Subtotal = sp.Subtotal + a) (p : String) :
    subtotalSum (updateKey s p f) =
      subtotalSum s + if p ∈ splitKeys s then a else 0 := by
  induction s with
  | nil => simp [updateKey, subtotalSum, splitKeys]
  | cons e t ih =>
    have hnd' : (splitKeys t).Nodup := (List.nodup_cons.mp (by simpa [splitKeys] using hnd)).2
    have hout : e.1 ∉ splitKeys t := (List.nodup_cons.mp (by simpa [splitKeys] using hnd)).1
    by_cases h : e.1 = p
    · have hpt : p ∉ splitKeys t := h ▸ hout
      simp only [updateKey, List.map_cons, if_pos h, subtotalSum, List.map_cons,
        List.sum_cons]
      rw [show (t.map fun e => if e.1 = p then (e.1, f e.2) else e) = t from
        updateKey_of_not_mem f hpt]
      have hmem : p ∈ splitKeys (e :: t) := by simp [splitKeys, h]
      rw [if_pos hmem, hf]
      show e.2.Subtotal + a + (subtotalSum t) = subtotalSum (e :: t) + a
      simp [subtotalSum]
      ring
    · simp only [updateKey, List.map_cons, if_neg h]
      have : subtotalSum ((e :: (t.map fun e => if e.1 = p then (e.1, f e.2) else e))) =
          e.2.Subtotal + subtotalSum (updateKey t p f) := by
        simp [subtotalSum, updateKey]
      rw [this, ih hnd']
      have hmem : (p ∈ splitKeys (e :: t)) ↔ p ∈ splitKeys t := by
        simp only [splitKeys, List.map_cons, List.mem_cons]
        exact or_iff_right (fun hp => h hp.symm)
      by_cases hp : p ∈ splitKeys t <;>
        simp [subtotalSum, hmem, hp] <;> ring

theorem splitKeys_foldl_update (parts : List String) (f : PersonSplit → PersonSplit) :
    ∀ s : Splits, splitKeys (parts.foldl (fun s q => updateKey s q f) s) = splitKeys s := by
  induction parts with
  | nil => intro s; rfl
  | cons q qs ih => intro s; rw [List.foldl_cons, ih, splitKeys_updateKey]

theorem subtotalSum_foldl_update (parts : List String) :
    ∀ (s : Splits) (K : List String), splitKeys s = K → K.Nodup →
      ∀ (f : PersonSplit → PersonSplit) (a : ℚ),
        (∀ sp, (f sp).Subtotal = sp.Subtotal + a) →
        subtotalSum (parts.foldl (fun s q => updateKey s q f) s) =
          subtotalSum s + a * ((parts.filter fun q => decide (q ∈ K)).length : ℚ) := by
  induction parts with
  | nil => intro s K hK hnd f a hf; simp
  | cons q qs ih =>
    intro s K hK hnd f a hf
    rw [List.foldl_cons]
    have hkeys : splitKeys (updateKey s q f) = K := by rw [splitKeys_updateKey, hK]
    rw [ih (updateKey s q f) K hkeys hnd f a hf,
      subtotalSum_updateKey (hK ▸ hnd) hf q, hK]
    by_cases hq : q ∈ K
    · have hfil : List.filter (fun r => decide (r ∈ K)) (q :: qs) =
          q :: List.filter (fun r => decide (r ∈ K)) qs := by simp [hq]
      rw [hfil, if_pos hq, List.length_cons]
      push_cast
      ring
    · have hfil : List.filter (fun r => decide (r ∈ K)) (q :: qs) =
          List.filter (fun r => decide (r ∈ K)) qs := by simp [hq]
      rw [hfil, if_neg hq]
      ring

/-- Per-item credited amount: the per-person share times the number of named
participant slots that actually exist in the splits map. -/
def assignedSum (items : List Item) (K : List String) : ℚ :=
  ((items.filter fun i => !i.Participants.isEmpty).map fun i =>
    (i.Amount / (i.Participants.length : ℚ)) *
      ((i.Participants.filter fun q => decide (q ∈ K)).length : ℚ)).sum

theorem itemizedStage_spec (items : List Item) :
    ∀ (t : ℚ) (s : Splits), (splitKeys s).Nodup →
      (items.foldl applyItem (t, s)).1 = t + itemizedTotal items ∧
      splitKeys (items.foldl applyItem (t, s)).2 = splitKeys s ∧
      subtotalSum (items.foldl applyItem (t, s)).2 =
        subtotalSum s + assignedSum items (splitKeys s) := by
  induction items with
  | nil => intro t s hnd; simp [itemizedTotal, assignedSum]
  | cons i rest ih =>
    intro t s hnd
    rw [List.foldl_cons]
    by_cases hemp : i.Participants.isEmpty
    · have happ : applyItem (t, s) i = (t, s) := by simp [applyItem, hemp]
      rw [happ]
      obtain ⟨h1, h2, h3⟩ := ih t s hnd
      refine ⟨?_, h2, ?_⟩
      · rw [h1]
        have : itemizedTotal (i :: rest) = itemizedTotal rest := by
          simp [itemizedTotal, List.filter_cons, hemp]
        rw [this]
      · rw [h3]
        have : assignedSum (i :: rest) (splitKeys s) = assignedSum rest (splitKeys s) := by
          simp [assignedSum, List.filter_cons, hemp]
        rw [this]
    · have happ : applyItem (t, s) i =
          (t + i.Amount,
            i.Participants.foldl
              (fun s person => updateKey s person (fun sp =>
                { sp with
                    Subtotal := sp.Subtotal + i.Amount / (i.Participants.length : ℚ),
                    Items := sp.Items ++
                      [⟨i.Description, i.Amount / (i.Participants.length : ℚ)⟩] })) s) := by
        simp [applyItem, hemp]
      rw [happ]
      set s' := i.Participants.foldl
          (fun s person => updateKey s person (fun sp =>
            { sp with
                Subtotal := sp.Subtotal + i.Amount / (i.Participants.length : ℚ),
                Items := sp.Items ++
                  [⟨i.Description, i.Amount / (i.Participants.length : ℚ)⟩] })) s with hs'
      have hkeys : splitKeys s' = splitKeys s := by
        rw [hs']; exact splitKeys_foldl_update _ _ s
      have hsum : subtotalSum s' = subtotalSum s +
          (i.Amount / (i.Participants.length : ℚ)) *
            ((i.Participants.filter fun q => decide (q ∈ splitKeys s)).length : ℚ) := by
        rw [hs']
        exact subtotalSum_foldl_update i.Participants s (splitKeys s) rfl hnd _ _
          (fun sp => rfl)
      obtain ⟨h1, h2, h3⟩ := ih (t + i.Amount) s' (hkeys ▸ hnd)
      refine ⟨?_, by rw [h2, hkeys], ?_⟩
      · rw [h1]
        have : itemizedTotal (i :: rest) = i.Amount + itemizedTotal rest := by
          simp [itemizedTotal, List.filter_cons, hemp]
        rw [this]
        ring
      · rw [h3, hsum, hkeys]
        have : assignedSum (i :: rest) (splitKeys s) =
            (i.Amount / (i.Participants.length : ℚ)) *
              ((i.Participants.filter fun q => decide (q ∈ splitKeys s)).length : ℚ) +
              assignedSum rest (splitKeys s) := by
          simp [assignedSum, List.filter_cons, hemp]
        rw [this]
        ring

theorem assignedSum_eq_sub_dropped (items : List Item) (K ps : List String)
    (hK : ∀ q, q ∈ K ↔ q ∈ ps) :
    assignedSum items K = itemizedTotal items - droppedShare items ps := by
  induction items with
  | nil => simp [assignedSum, itemizedTotal, droppedShare]
  | cons i rest ih =>
    by_cases hemp : i.Participants.isEmpty
    · have h1 : assignedSum (i :: rest) K = assignedSum rest K := by
        simp [assignedSum, List.filter_cons, hemp]
      have h2 : itemizedTotal (i :: rest) = itemizedTotal rest := by
        simp [itemizedTotal, List.filter_cons, hemp]
      have h3 : droppedShare (i :: rest) ps = droppedShare rest ps := by
        simp [droppedShare, List.filter_cons, hemp]
      rw [h1, h2, h3, ih]
    · have hne : i.Participants ≠ [] := by
        simpa [List.isEmpty_iff] using hemp
      have hn : ((i.Participants.length : ℚ)) ≠ 0 := by
        simpa using List.length_pos.mpr hne |>.ne'
      have hcount : ((i.Participants.filter fun q => decide (q ∈ K)).length : ℚ) =
          (i.Participants.length : ℚ) -
            ((i.Participants.filter fun q => !ps.contains q).length : ℚ) := by
        have hcongr : (i.Participants.filter fun q => !ps.contains q) =
            i.Participants.filter fun q => !(decide (q ∈ K)) := by
          apply List.filter_congr
          intro q _
          have hcq : (ps.contains q = true) ↔ q ∈ ps := by simp
          by_cases hq : q ∈ ps
          · simp [hq, hcq.mpr hq, (hK q).mpr hq]
          · have h1 : ps.contains q = false := by
              simpa using fun h => hq (hcq.mp h)
            have h2 : decide (q ∈ K) = false := by
              simpa using fun h => hq ((hK q).mp h)
            simp [h1, h2, hq]
        have hsplit : i.Participants.length =
            (i.Participants.filter fun q => decide (q ∈ K)).length +
              (i.Participants.filter fun q => !ps.contains q).length := by
          rw [hcongr]
          exact List.length_eq_length_filter_add _
        have hcast := congrArg (Nat.cast (R := ℚ)) hsplit
        push_cast at hcast
        linarith
      have h1 : assignedSum (i :: rest) K =
          (i.Amount / (i.Participants.length : ℚ)) *
            ((i.Participants.filter fun q => decide (q ∈ K)).length : ℚ) +
            assignedSum rest K := by
        simp [assignedSum, List.filter_cons, hemp]
      have h2 : itemizedTotal (i :: rest) = i.Amount + itemizedTotal rest := by
        simp [itemizedTotal, List.filter_cons, hemp]
      have h3 : droppedShare (i :: rest) ps =
          ((i.Participants.filter fun q => !ps.contains q).length : ℚ) *
            (i.Amount / (i.Participants.length : ℚ)) + droppedShare rest ps := by
        simp [droppedShare, List.filter_cons, hemp]
      rw [h1, h2, h3, ih, hcount]
      field_simp
      ring

theorem droppedShare_eq_zero {items : List Item} {ps : List String}
    (h : ∀ i ∈ items, ∀ q ∈ i.Participants, q ∈ ps) :
    droppedShare items ps = 0 := by
  unfold droppedShare
  apply List.sum_eq_zero
  intro x hx
  obtain ⟨i, hi, rfl⟩ := List.mem_map.mp hx
  have hi' : i ∈ items := (List.mem_filter.mp hi).1
  have hnil : (i.Participants.filter fun q => !ps.contains q) = [] := by
    rw [List.filter_eq_nil_iff]
    intro q hq
    simp [h i hi' q hq]
  rw [hnil]
  simp

theorem subtotalSum_initSplits (ps : List String) : subtotalSum (initSplits ps) = 0 := by
  apply List.sum_eq_zero
  intro x hx
  obtain ⟨e, he, rfl⟩ := List.mem_map.mp hx
  rw [initSplits_values ps e he]
  rfl

theorem splits_length_eq (s : Splits) : (s.length : ℚ) = ((splitKeys s).length : ℚ) := by
  simp [splitKeys]

theorem subtotalSum_map_addShare (s : Splits) (c : ℚ) :
    subtotalSum (s.map fun e =>
      (e.1, { e.2 with Subtotal := e.2.Subtotal + c,
                       Items := e.2.Items ++ [⟨"Shared", c⟩] })) =
      subtotalSum s + c * (s.length : ℚ) := by
  induction s with
  | nil => simp [subtotalSum]
  | cons e t ih =>
    simp only [subtotalSum, List.map_cons, List.sum_cons, List.length_cons] at ih ⊢
    rw [ih]
    push_cast
    ring

theorem subtotalSum_map_tax (s : Splits) (r : ℚ) :
    subtotalSum (s.map fun e =>
      (e.1, { e.2 with Tax := e.2.Subtotal * r,
                       Total := e.2.Subtotal + e.2.Subtotal * r })) = subtotalSum s := by
  induction s with
  | nil => rfl
  | cons e t ih =>
    simp only [subtotalSum, List.map_cons, List.sum_cons] at ih ⊢
    rw [ih]

theorem totalSum_map_tax (s : Splits) (r : ℚ) :
    totalSum (s.map fun e =>
      (e.1, { e.2 with Tax := e.2.Subtotal * r,
                       Total := e.2.Subtotal + e.2.Subtotal * r })) =
      subtotalSum s * (1 + r) := by
  induction s with
  | nil => simp [totalSum, subtotalSum]
  | cons e t ih =>
    simp only [totalSum, subtotalSum, List.map_cons, List.sum_cons] at ih ⊢
    rw [ih]
    ring

theorem subtotalSum_map_const (s : Splits) (cS cX cT : ℚ) :
    subtotalSum (s.map fun e =>
      (e.1, { e.2 with Subtotal := cS, Tax := cX, Total := cT })) =
      cS * (s.length : ℚ) := by
  induction s with
  | nil => simp [subtotalSum]
  | cons e t ih =>
    simp only [subtotalSum, List.map_cons, List.sum_cons, List.length_cons] at ih ⊢
    rw [ih]
    push_cast
    ring

theorem totalSum_map_const (s : Splits) (cS cX cT : ℚ) :
    totalSum (s.map fun e =>
      (e.1, { e.2 with Subtotal := cS, Tax := cX, Total := cT })) =
      cT * (s.length : ℚ) := by
  induction s with
  | nil => simp [totalSum]
  | cons e t ih =>
    simp only [totalSum, List.map_cons, List.sum_cons, List.length_cons] at ih ⊢
    rw [ih]
    push_cast
    ring

theorem itemizedStage_fst (items : List Item) (s : Splits) (hnd : (splitKeys s).Nodup) :
    (itemizedStage items s).1 = itemizedTotal items := by
  simpa [itemizedStage] using (itemizedStage_spec items 0 s hnd).1

theorem itemizedStage_keys (items : List Item) (s : Splits) (hnd : (splitKeys s).Nodup) :
    splitKeys (itemizedStage items s).2 = splitKeys s :=
  (itemizedStage_spec items 0 s hnd).2.1

theorem itemizedStage_sum (items : List Item) (s : Splits) (hnd : (splitKeys s).Nodup) :
    subtotalSum (itemizedStage items s).2 = subtotalSum s + assignedSum items (splitKeys s) :=
  (itemizedStage_spec items 0 s hnd).2.2

/-- C1 (amended): for a nonzero subtotal, a non-empty duplicate-free participant
list, items whose participant sets are subsets of the bill's participants, and
an itemized total that does not exceed the subtotal (or no items at all),
`CalculateSplit` succeeds, the per-person subtotal shares sum exactly to
`billSubtotal`, and the per-person total shares sum exactly to `billTotal`. -/
theorem calculateSplit_conservation (items : List Item) (billTotal billSubtotal : ℚ)
    (participants : List String) (hS : billSubtotal ≠ 0) (hp : participants ≠ [])
    (hnd : participants.Nodup)
    (hsub : ∀ i ∈ items, ∀ q ∈ i.Participants, q ∈ participants)
    (hcover : items = [] ∨ itemizedTotal items ≤ billSubtotal) :
    ∃ m, CalculateSplit items billTotal billSubtotal participants = .ok m ∧
      subtotalSum m = billSubtotal ∧ totalSum m = billTotal := by
  have hpe : ¬(participants.isEmpty = true) := by simpa [List.isEmpty_iff] using hp
  have hn0 : ((participants.length : ℚ)) ≠ 0 := by
    simpa using (List.length_pos.mpr hp).ne'
  have hkeys0 : splitKeys (initSplits participants) = participants :=
    splitKeys_initSplits_of_nodup hnd
  have hlen : (((initSplits participants).length : ℚ)) = (participants.length : ℚ) := by
    rw [splits_length_eq, hkeys0]
  simp only [CalculateSplit]
  rw [if_neg hS, if_neg hpe]
  by_cases hie : items.isEmpty
  · rw [if_pos hie]
    refine ⟨_, rfl, ?_, ?_⟩
    · rw [subtotalSum_map_const, hlen, div_mul_cancel₀ _ hn0]
    · rw [totalSum_map_const, hlen, div_mul_cancel₀ _ hn0]
  · rw [if_neg hie]
    have hnd' : (splitKeys (initSplits participants)).Nodup := by
      rw [hkeys0]; exact hnd
    have h1 : (itemizedStage items (initSplits participants)).1 = itemizedTotal items :=
      itemizedStage_fst _ _ hnd'
    have h3 : subtotalSum (itemizedStage items (initSplits participants)).2 =
        itemizedTotal items := by
      rw [itemizedStage_sum _ _ hnd', subtotalSum_initSplits, hkeys0,
        assignedSum_eq_sub_dropped items participants participants (fun q => Iff.rfl),
        droppedShare_eq_zero hsub]
      ring
    have hlen2 : ((((itemizedStage items (initSplits participants)).2).length : ℚ)) =
        (participants.length : ℚ) := by
      rw [splits_length_eq, itemizedStage_keys _ _ hnd', hkeys0]
    by_cases hrem : (itemizedStage items (initSplits participants)).1 < billSubtotal
    · rw [if_pos hrem]
      refine ⟨_, rfl, ?_, ?_⟩
      · rw [subtotalSum_map_tax, subtotalSum_map_addShare, h3, hlen2, h1,
          div_mul_cancel₀ _ hn0]
        ring
      · rw [totalSum_map_tax, subtotalSum_map_addShare, h3, hlen2, h1,
          div_mul_cancel₀ _ hn0]
        field_simp
    · rw [if_neg hrem]
      have heq : itemizedTotal items = billSubtotal := by
        rcases hcover with hc | hc
        · exact ((hie (by simp [hc])).elim)
        · have hge := not_lt.mp hrem
          rw [h1] at hge
          exact le_antisymm hc hge
      refine ⟨_, rfl, ?_, ?_⟩
      · rw [subtotalSum_map_tax, h3, heq]
      · rw [totalSum_map_tax, h3, heq]
        field_simp

/-- C1, counterexample: when the itemized amounts exceed the subtotal (here a
40-rated item against a subtotal of 30), the call still succeeds but the
subtotal shares sum to 40 and the total shares to 44, not to the bill's 30 and
33; the difference is far beyond the 1e-6 tolerance. -/
theorem calculateSplit_conservation_cex :
    (CalculateSplit [⟨"X", 40, ["A"]⟩] 33 30 ["A"]).map subtotalSum = .ok 40 ∧
    (CalculateSplit [⟨"X", 40, ["A"]⟩] 33 30 ["A"]).map totalSum = .ok 44 ∧
    ¬((40 : ℚ) - 30 ≤ 1 / 1000000) := by
  refine ⟨?_, ?_, by norm_num⟩ <;>
    norm_num +decide [Except.map, CalculateSplit, itemizedStage, applyItem, initSplits,
      setKey, hasKey, updateKey, subtotalSum, totalSum, emptySplit]

/-- Witness for `calculateSplit_conservation` at a concrete covered bill. -/
theorem calculateSplit_conservation_witness :
    ∃ m, CalculateSplit [⟨"Pizza", 20, ["Alice"]⟩] 33 30 ["Alice", "Bob"] = .ok m ∧
      subtotalSum m = 30 ∧ totalSum m = 33 :=
  calculateSplit_conservation _ 33 30 _ (by norm_num) (by simp) (by decide)
    (by
      intro i hi q hq
      obtain rfl := List.mem_singleton.mp hi
      simp only [List.mem_singleton] at hq
      subst hq
      simp)
    (Or.inr (by norm_num +decide [itemizedTotal]))

/-- C2: in the itemized case, every returned split satisfies
`Tax = Subtotal × ((billTotal − billSubtotal) / billSubtotal)` and
`Total = Subtotal + Tax`; and the Pizza/Salad scenario returns
Alice ⟨20, 2, 22⟩ and Bob ⟨10, 1, 11⟩. -/
theorem calculateSplit_proportional_tax (items : List Item) (billTotal billSubtotal : ℚ)
    (participants : List String) (hS : billSubtotal ≠ 0) (hp : participants ≠ [])
    (hitems : items ≠ []) :
    (∃ m, CalculateSplit items billTotal billSubtotal participants = .ok m ∧
      ∀ e ∈ m, e.2.Tax = e.2.Subtotal * ((billTotal - billSubtotal) / billSubtotal) ∧
        e.2.Total = e.2.Subtotal + e.2.Tax) ∧
    (CalculateSplit [⟨"Pizza", 20, ["Alice"]⟩, ⟨"Salad", 10, ["Bob"]⟩] 33 30
        ["Alice", "Bob"]).map (fun m =>
          ((lookupKey m "Alice").map fun sp => (sp.Subtotal, sp.Tax, sp.Total),
           (lookupKey m "Bob").map fun sp => (sp.Subtotal, sp.Tax, sp.Total))) =
      .ok (some (20, 2, 22), some (10, 1, 11)) := by
  constructor
  · have hpe : ¬(participants.isEmpty = true) := by simpa [List.isEmpty_iff] using hp
    have hie : ¬(items.isEmpty = true) := by simpa [List.isEmpty_iff] using hitems
    simp only [CalculateSplit]
    rw [if_neg hS, if_neg hpe, if_neg hie]
    refine ⟨_, rfl, ?_⟩
    intro e he
    obtain ⟨a, ha, rfl⟩ := List.mem_map.mp he
    exact ⟨rfl, rfl⟩
  · norm_num +decide [Except.map, CalculateSplit, itemizedStage, applyItem, initSplits,
      setKey, hasKey, updateKey, lookupKey, emptySplit]

/-- Witness for `calculateSplit_proportional_tax` at the Pizza/Salad bill. -/
theorem calculateSplit_proportional_tax_witness :
    ∃ m, CalculateSplit [⟨"Pizza", 20, ["Alice"]⟩, ⟨"Salad", 10, ["Bob"]⟩] 33 30
        ["Alice", "Bob"] = .ok m ∧
      ∀ e ∈ m, e.2.Tax = e.2.Subtotal * ((33 - 30) / 30) ∧
        e.2.Total = e.2.Subtotal + e.2.Tax :=
  (calculateSplit_proportional_tax _ 33 30 ["Alice", "Bob"]
    (by norm_num) (by simp) (by simp)).1

/-- C3: when the itemized amounts fall short of the subtotal, every
participant's final split is the itemized-stage split with the equal remainder
share added to the subtotal and a "Shared" `PersonItem` carrying that share
appended; in the Banana scenario Mo's subtotal is 40 (remainder only), Ree's is
50 (banana plus remainder), and the totals sum to 100. -/
theorem calculateSplit_remainder (items : List Item) (billTotal billSubtotal : ℚ)
    (participants : List String) (hS : billSubtotal ≠ 0) (hp : participants ≠ [])
    (hitems : items ≠ [])
    (hrem : (itemizedStage items (initSplits participants)).1 < billSubtotal) :
    (∃ m, CalculateSplit items billTotal billSubtotal participants = .ok m ∧
      ∀ p : String,
        (lookupKey m p).map (fun sp => (sp.Subtotal, sp.Items)) =
          (lookupKey (itemizedStage items (initSplits participants)).2 p).map
            (fun sp =>
              (sp.Subtotal +
                 (billSubtotal - (itemizedStage items (initSplits participants)).1) /
                   (participants.length : ℚ),
               sp.Items ++ [⟨"Shared",
                 (billSubtotal - (itemizedStage items (initSplits participants)).1) /
                   (participants.length : ℚ)⟩]))) ∧
    (CalculateSplit [⟨"Banana", 10, ["Ree"]⟩] 100 90 ["Mo", "Ree"]).map
        (fun m => ((lookupKey m "Mo").map PersonSplit.Subtotal,
          (lookupKey m "Ree").map PersonSplit.Subtotal, totalSum m)) =
      .ok (some 40, some 50, 100) := by
  constructor
  · have hpe : ¬(participants.isEmpty = true) := by simpa [List.isEmpty_iff] using hp
    have hie : ¬(items.isEmpty = true) := by simpa [List.isEmpty_iff] using hitems
    simp only [CalculateSplit]
    rw [if_neg hS, if_neg hpe, if_neg hie, if_pos hrem]
    refine ⟨_, rfl, ?_⟩
    intro p
    rw [lookupKey_map
        (fun sp => { sp with
          Tax := sp.Subtotal * ((billTotal - billSubtotal) / billSubtotal),
          Total := sp.Subtotal + sp.Subtotal * ((billTotal - billSubtotal) / billSubtotal) }),
      lookupKey_map
        (fun sp => { sp with
          Subtotal := sp.Subtotal +
            (billSubtotal - (itemizedStage items (initSplits participants)).1) /
              (participants.length : ℚ),
          Items := sp.Items ++ [⟨"Shared",
            (billSubtotal - (itemizedStage items (initSplits participants)).1) /
              (participants.length : ℚ)⟩] })]
    cases lookupKey (itemizedStage items (initSplits participants)).2 p <;> rfl
  · norm_num +decide [Except.map, CalculateSplit, itemizedStage, applyItem, initSplits,
      setKey, hasKey, updateKey, lookupKey, emptySplit, totalSum]

/-- Witness for `calculateSplit_remainder` at the Banana bill. -/
theorem calculateSplit_remainder_witness :
    ∃ m, CalculateSplit [⟨"Banana", 10, ["Ree"]⟩] 100 90 ["Mo", "Ree"] = .ok m ∧
      ∀ p : String,
        (lookupKey m p).map (fun sp => (sp.Subtotal, sp.Items)) =
          (lookupKey (itemizedStage [⟨"Banana", 10, ["Ree"]⟩]
              (initSplits ["Mo", "Ree"])).2 p).map
            (fun sp =>
              (sp.Subtotal +
                 (90 - (itemizedStage [⟨"Banana", 10, ["Ree"]⟩]
                     (initSplits ["Mo", "Ree"])).1) / ((["Mo", "Ree"].length : ℚ)),
               sp.Items ++ [⟨"Shared",
                 (90 - (itemizedStage [⟨"Banana", 10, ["Ree"]⟩]
                     (initSplits ["Mo", "Ree"])).1) / ((["Mo", "Ree"].length : ℚ))⟩])) :=
  (calculateSplit_remainder [⟨"Banana", 10, ["Ree"]⟩] 100 90 ["Mo", "Ree"]
    (by norm_num) (by simp) (by simp)
    (by norm_num +decide [itemizedStage, applyItem, initSplits, setKey, hasKey,
      updateKey, emptySplit])).1

/-- C6: `CalculateSplit` returns the error "subtotal cannot be zero" exactly
when the subtotal is zero, returns "must have at least one participant" exactly
when the subtotal is nonzero and the participant list is empty, and otherwise
succeeds with a split map whose keys are exactly the distinct participants
(and, the result being a sum type, an error excludes any partial result). -/
theorem calculateSplit_errors (items : List Item) (billTotal billSubtotal : ℚ)
    (participants : List String) :
    (CalculateSplit items billTotal billSubtotal participants =
        .error "subtotal cannot be zero" ↔ billSubtotal = 0) ∧
    (CalculateSplit items billTotal billSubtotal participants =
        .error "must have at least one participant" ↔
        billSubtotal ≠ 0 ∧ participants = []) ∧
    (billSubtotal ≠ 0 → participants ≠ [] →
      ∃ m, CalculateSplit items billTotal billSubtotal participants = .ok m ∧
        (splitKeys m).Nodup ∧ ∀ p, p ∈ splitKeys m ↔ p ∈ participants) := by
  by_cases hS : billSubtotal = 0
  · refine ⟨by simp [CalculateSplit, hS], ?_, ?_⟩
    · simp only [CalculateSplit, if_pos hS]
      constructor
      · intro h
        exact absurd (Except.error.inj h) (by simp)
      · rintro ⟨h, _⟩
        exact absurd hS h
    · intro h
      exact absurd hS h
  · by_cases hp : participants = []
    · have hpe : participants.isEmpty = true := by simp [hp]
      refine ⟨?_, by simp [CalculateSplit, if_neg hS, if_pos hpe, hS, hp], ?_⟩
      · simp only [CalculateSplit, if_neg hS, if_pos hpe]
        constructor
        · intro h
          exact absurd (Except.error.inj h).symm (by simp)
        · intro h
          exact absurd h hS
      · intro _ hp'
        exact absurd hp hp'
    · have hpe : ¬(participants.isEmpty = true) := by simpa [List.isEmpty_iff] using hp
      have hndK := nodup_splitKeys_initSplits participants
      constructor
      · simp only [CalculateSplit, if_neg hS, if_neg hpe]
        by_cases hie : items.isEmpty <;> simp [hie, hS]
      constructor
      · simp only [CalculateSplit, if_neg hS, if_neg hpe]
        by_cases hie : items.isEmpty <;> simp [hie, hp]
      · intro _ _
        simp only [CalculateSplit, if_neg hS, if_neg hpe]
        by_cases hie : items.isEmpty
        · rw [if_pos hie]
          refine ⟨_, rfl, ?_, ?_⟩
          · rw [splitKeys_map _ (fun sp => { sp with
              Subtotal := billSubtotal / (participants.length : ℚ),
              Tax := (billTotal - billSubtotal) / (participants.length : ℚ),
              Total := billTotal / (participants.length : ℚ) })]
            exact hndK
          · intro p
            rw [splitKeys_map _ (fun sp => { sp with
              Subtotal := billSubtotal / (participants.length : ℚ),
              Tax := (billTotal - billSubtotal) / (participants.length : ℚ),
              Total := billTotal / (participants.length : ℚ) })]
            exact mem_splitKeys_initSplits
        · rw [if_neg hie]
          have hstK : splitKeys (itemizedStage items (initSplits participants)).2 =
              splitKeys (initSplits participants) :=
            itemizedStage_keys items (initSplits participants) hndK
          by_cases hrem :
              (itemizedStage items (initSplits participants)).1 < billSubtotal
          · rw [if_pos hrem]
            refine ⟨_, rfl, ?_, ?_⟩
            · rw [splitKeys_map _ (fun sp => { sp with
                Tax := sp.Subtotal * ((billTotal - billSubtotal) / billSubtotal),
                Total := sp.Subtotal +
                  sp.Subtotal * ((billTotal - billSubtotal) / billSubtotal) }),
                splitKeys_map _ (fun sp => { sp with
                Subtotal := sp.Subtotal +
                  (billSubtotal - (itemizedStage items (initSplits participants)).1) /
                    (participants.length : ℚ),
                Items := sp.Items ++ [⟨"Shared",
                  (billSubtotal - (itemizedStage items (initSplits participants)).1) /
                    (participants.length : ℚ)⟩] }), hstK]
              exact hndK
            · intro p
              rw [splitKeys_map _ (fun sp => { sp with
                Tax := sp.Subtotal * ((billTotal - billSubtotal) / billSubtotal),
                Total := sp.Subtotal +
                  sp.Subtotal * ((billTotal - billSubtotal) / billSubtotal) }),
                splitKeys_map _ (fun sp => { sp with
                Subtotal := sp.Subtotal +
                  (billSubtotal - (itemizedStage items (initSplits participants)).1) /
                    (participants.length : ℚ),
                Items := sp.Items ++ [⟨"Shared",
                  (billSubtotal - (itemizedStage items (initSplits participants)).1) /
                    (participants.length : ℚ)⟩] }), hstK]
              exact mem_splitKeys_initSplits
          · rw [if_neg hrem]
            refine ⟨_, rfl, ?_, ?_⟩
            · rw [splitKeys_map _ (fun sp => { sp with
                Tax := sp.Subtotal * ((billTotal - billSubtotal) / billSubtotal),
                Total := sp.Subtotal +
                  sp.Subtotal * ((billTotal - billSubtotal) / billSubtotal) }), hstK]
              exact hndK
            · intro p
              rw [splitKeys_map _ (fun sp => { sp with
                Tax := sp.Subtotal * ((billTotal - billSubtotal) / billSubtotal),
                Total := sp.Subtotal +
                  sp.Subtotal * ((billTotal - billSubtotal) / billSubtotal) }), hstK]
              exact mem_splitKeys_initSplits

/-- C10 (amended): people named on items but absent from the bill's participant
list get no entry in the result, and (when the itemized total does not exceed
the subtotal and participants are distinct) the sum of the returned subtotal
shares falls short of `billSubtotal` by exactly the dropped share. -/
theorem calculateSplit_dropped (items : List Item) (billTotal billSubtotal : ℚ)
    (participants : List String) (hS : billSubtotal ≠ 0) (hp : participants ≠ [])
    (hnd : participants.Nodup) (hitems : items ≠ [])
    (hcover : itemizedTotal items ≤ billSubtotal) :
    ∃ m, CalculateSplit items billTotal billSubtotal participants = .ok m ∧
      (∀ q, q ∉ participants → lookupKey m q = none) ∧
      subtotalSum m = billSubtotal - droppedShare items participants := by
  have hpe : ¬(participants.isEmpty = true) := by simpa [List.isEmpty_iff] using hp
  have hie : ¬(items.isEmpty = true) := by simpa [List.isEmpty_iff] using hitems
  have hn0 : ((participants.length : ℚ)) ≠ 0 := by
    simpa using (List.length_pos.mpr hp).ne'
  have hkeys0 : splitKeys (initSplits participants) = participants :=
    splitKeys_initSplits_of_nodup hnd
  have hnd' : (splitKeys (initSplits participants)).Nodup := by
    rw [hkeys0]; exact hnd
  have h1 : (itemizedStage items (initSplits participants)).1 = itemizedTotal items :=
    itemizedStage_fst _ _ hnd'
  have h3 : subtotalSum (itemizedStage items (initSplits participants)).2 =
      itemizedTotal items - droppedShare items participants := by
    rw [itemizedStage_sum _ _ hnd', subtotalSum_initSplits, hkeys0,
      assignedSum_eq_sub_dropped items participants participants (fun q => Iff.rfl)]
    ring
  have hlen2 : ((((itemizedStage items (initSplits participants)).2).length : ℚ)) =
      (participants.length : ℚ) := by
    rw [splits_length_eq, itemizedStage_keys _ _ hnd', hkeys0]
  have habsent : ∀ (m : Splits), splitKeys m = participants →
      ∀ q, q ∉ participants → lookupKey m q = none := by
    intro m hm q hq
    rcases hopt : lookupKey m q with _ | v
    · rfl
    · have : q ∈ splitKeys m := lookupKey_isSome_iff.mp (by rw [hopt]; rfl)
      rw [hm] at this
      exact absurd this hq
  simp only [CalculateSplit]
  rw [if_neg hS, if_neg hpe, if_neg hie]
  by_cases hrem : (itemizedStage items (initSplits participants)).1 < billSubtotal
  · rw [if_pos hrem]
    refine ⟨_, rfl, ?_, ?_⟩
    · apply habsent
      rw [splitKeys_map _ (fun sp => { sp with
          Tax := sp.Subtotal * ((billTotal - billSubtotal) / billSubtotal),
          Total := sp.Subtotal +
            sp.Subtotal * ((billTotal - billSubtotal) / billSubtotal) }),
        splitKeys_map _ (fun sp => { sp with
          Subtotal := sp.Subtotal +
            (billSubtotal - (itemizedStage items (initSplits participants)).1) /
              (participants.length : ℚ),
          Items := sp.Items ++ [⟨"Shared",
            (billSubtotal - (itemizedStage items (initSplits participants)).1) /
              (participants.length : ℚ)⟩] }),
        itemizedStage_keys _ _ hnd', hkeys0]
    · rw [subtotalSum_map_tax, subtotalSum_map_addShare, h3, hlen2, h1,
        div_mul_cancel₀ _ hn0]
      ring
  · rw [if_neg hrem]
    have heq : itemizedTotal items = billSubtotal := by
      have hge := not_lt.mp hrem
      rw [h1] at hge
      exact le_antisymm hcover hge
    refine ⟨_, rfl, ?_, ?_⟩
    · apply habsent
      rw [splitKeys_map _ (fun sp => { sp with
          Tax := sp.Subtotal * ((billTotal - billSubtotal) / billSubtotal),
          Total := sp.Subtotal +
            sp.Subtotal * ((billTotal - billSubtotal) / billSubtotal) }),
        itemizedStage_keys _ _ hnd', hkeys0]
    · rw [subtotalSum_map_tax, h3, heq]

/-- C10, counterexample: with an item assigned only to an outsider and an
itemized total exceeding the subtotal, the sum of subtotal shares is 0 rather
than `billSubtotal − droppedShare = 30 − 40 = −10`, so the claimed shortfall
identity fails in general. -/
theorem calculateSplit_dropped_cex :
    (CalculateSplit [⟨"X", 40, ["Q"]⟩] 30 30 ["A"]).map subtotalSum = .ok 0 ∧
    droppedShare [⟨"X", 40, ["Q"]⟩] ["A"] = 40 ∧
    ((0 : ℚ) ≠ 30 - 40) := by
  refine ⟨?_, ?_, by norm_num⟩
  · norm_num +decide [Except.map, CalculateSplit, itemizedStage, applyItem, initSplits,
      setKey, hasKey, updateKey, subtotalSum, emptySplit]
  · norm_num +decide [droppedShare]

/-- Witness for `calculateSplit_dropped`: a 10-rated item assigned to an
outsider, so the returned subtotals sum to 30 − 10 = 20. -/
theorem calculateSplit_dropped_witness :
    ∃ m, CalculateSplit [⟨"X", 10, ["Q"]⟩] 30 30 ["A"] = .ok m ∧
      (∀ q, q ∉ ["A"] → lookupKey m q = none) ∧
      subtotalSum m = 30 - droppedShare [⟨"X", 10, ["Q"]⟩] ["A"] :=
  calculateSplit_dropped [⟨"X", 10, ["Q"]⟩] 30 30 ["A"]
    (by norm_num) (by simp) (by simp) (by simp)
    (by norm_num +decide [itemizedTotal])

/-- Witness for `calculateSplit_errors` at a concrete valid bill. -/
theorem calculateSplit_errors_witness :
    ((CalculateSplit [] 10 10 ["A"] = .error "subtotal cannot be zero" ↔ (10 : ℚ) = 0) ∧
      (CalculateSplit [] 10 10 ["A"] = .error "must have at least one participant" ↔
        (10 : ℚ) ≠ 0 ∧ ["A"] = []) ∧
      ((10 : ℚ) ≠ 0 → ["A"] ≠ [] →
        ∃ m, CalculateSplit [] 10 10 ["A"] = .ok m ∧
          (splitKeys m).Nodup ∧ ∀ p, p ∈ splitKeys m ↔ p ∈ ["A"])) :=
  calculateSplit_errors [] 10 10 ["A"]

/-! ### Balance aggregation (`balances.go`)

The `balances` map is modelled as a list of `MemberBalance` in insertion
order; the `debts` nested map in the source is write-only and does not affect
the returned values, so it is not modelled. -/

/-- A bill as consumed by the balance calculator (source: `BillForBalance`). -/
structure BillForBalance where
  Total : ℚ
  Subtotal : ℚ
  PayerID : String
  Items : List Item
  Participants : List String
deriving DecidableEq, Repr

/-- Balance information for one group member (source: `MemberBalance`). -/
structure MemberBalance where
  MemberName : String
  NetBalance : ℚ
  TotalPaid : ℚ
  TotalOwed : ℚ
deriving DecidableEq, Repr

/-- A simplified debt from one person to another (source: `DebtEdge`). -/
structure DebtEdge where
  From : String
  To : String
  Amount : ℚ
deriving DecidableEq, Repr

/-- A settlement as consumed by the balance calculator
(source: `SettlementForBalance`). -/
structure SettlementForBalance where
  FromUserID : String
  ToUserID : String
  Amount : ℚ
deriving DecidableEq, Repr

/-- The `map[string]*MemberBalance` of the source, in insertion order. -/
abbrev Balances := List MemberBalance

/-- Go map lookup `balances[p]`. -/
def findBal : Balances → String → Option MemberBalance
  | [], _ => none
  | b :: t, p => if b.MemberName = p then some b else findBal t p

/-- The member names present in the balances map. -/
def balNames (bal : Balances) : List String := bal.map MemberBalance.MemberName

/-- The `if _, exists := balances[p]; !exists` initialization of a zero entry. -/
def ensureBal (bal : Balances) (p : String) : Balances :=
  if (findBal bal p).isSome then bal else bal ++ [⟨p, 0, 0, 0⟩]

/-- `balances[p].TotalPaid += a`. -/
def addPaid (bal : Balances) (p : String) (a : ℚ) : Balances :=
  bal.map fun b => if b.MemberName = p then { b with TotalPaid := b.TotalPaid + a } else b

/-- `balances[p].TotalOwed += a`. -/
def addOwed (bal : Balances) (p : String) (a : ℚ) : Balances :=
  bal.map fun b => if b.MemberName = p then { b with TotalOwed := b.TotalOwed + a } else b

/-- One iteration of the bills loop of `CalculateGroupBalances`: skip bills
without a payer, otherwise split the bill, credit the payer with the full
total, and debit every split participant with their share. -/
def processBill (bal : Balances) (bill : BillForBalance) : Except String Balances :=
  if bill.PayerID = "" then .ok bal
  else
    match CalculateSplit bill.Items bill.Total bill.Subtotal bill.Participants with
    | .error e => .error ("failed to calculate split: " ++ e)
    | .ok splitResult =>
      let bal1 := ensureBal bal bill.PayerID
      let bal2 := addPaid bal1 bill.PayerID bill.Total
      .ok (splitResult.foldl
        (fun bal entry => addOwed (ensureBal bal entry.1) entry.1 entry.2.Total) bal2)

/-- The whole bills loop, aborting on the first failing bill. -/
def processBills : List BillForBalance → Balances → Except String Balances
  | [], bal => .ok bal
  | b :: bs, bal =>
    match processBill bal b with
    | .error e => .error e
    | .ok bal' => processBills bs bal'

/-- One iteration of the settlements loop: the `from` participant's paid total
and the `to` participant's owed total both grow by the settlement amount. -/
def applySettlement (bal : Balances) (s : SettlementForBalance) : Balances :=
  addOwed (addPaid (ensureBal (ensureBal bal s.FromUserID) s.ToUserID)
    s.FromUserID s.Amount) s.ToUserID s.Amount

/-- The whole settlements loop. -/
def processSettlements (settlements : List SettlementForBalance) (bal : Balances) :
    Balances :=
  settlements.foldl applySettlement bal

/-- `bal.NetBalance = bal.TotalPaid - bal.TotalOwed` for every entry. -/
def computeNet (bal : Balances) : Balances :=
  bal.map fun b => { b with NetBalance := b.TotalPaid - b.TotalOwed }

/-- The greedy matching loop, fuel-indexed exactly like the source's
`for i < len(debtors) && j < len(creditors)` loop: the two cursor advances are
the list head drops, and the remaining magnitudes live in the list entries
(the source reads them through name-keyed maps, which coincides because member
names are distinct). -/
def settleLoop : Nat → List (String × ℚ) → List (String × ℚ) → List DebtEdge
  | 0, _, _ => []
  | _ + 1, [], _ => []
  | _ + 1, _ :: _, [] => []
  | n + 1, (d, db) :: ds, (c, cb) :: cs =>
    let amount := min db cb
    (if 1 / 100 < amount then [⟨d, c, amount⟩] else []) ++
      settleLoop n (if db - amount < 1 / 100 then ds else (d, db - amount) :: ds)
        (if cb - amount < 1 / 100 then cs else (c, cb - amount) :: cs)

/-- The same loop in structural form: because the settled amount is the minimum
of the two head magnitudes, at least one residue is zero (hence below the 0.01
epsilon) at every step, so at least one cursor always advances. -/
def settle : List (String × ℚ) → List (String × ℚ) → List DebtEdge
  | [], _ => []
  | _ :: _, [] => []
  | (d, db) :: ds, (c, cb) :: cs =>
    let amount := min db cb
    (if 1 / 100 < amount then [⟨d, c, amount⟩] else []) ++
      (if db - amount < 1 / 100 then
        if cb - amount < 1 / 100 then settle ds cs
        else settle ds ((c, cb - amount) :: cs)
      else settle ((d, db - amount) :: ds) cs)
termination_by d c => d.length + c.length
decreasing_by
  all_goals simp [List.length_cons]
  all_goals omega

/-- `CalculateGroupBalances` from `balances.go`. -/
def CalculateGroupBalances (bills : List BillForBalance)
    (settlements : List SettlementForBalance) :
    Except String (List MemberBalance × List DebtEdge) :=
  match processBills bills [] with
  | .error e => .error e
  | .ok bal =>
    let afterSettle := processSettlements settlements bal
    let memberBalances := computeNet afterSettle
    let debtors := memberBalances.filter fun b => b.NetBalance < 0
    let creditors := memberBalances.filter fun b => 0 < b.NetBalance
    let debtEdges := settle (debtors.map fun b => (b.MemberName, -b.NetBalance))
        (creditors.map fun b => (b.MemberName, b.NetBalance))
    .ok (memberBalances, debtEdges)

/-- Total of edge amounts paid by `p`. -/
def paidBy (p : String) (E : List DebtEdge) : ℚ :=
  ((E.filter fun e => e.From = p).map DebtEdge.Amount).sum

/-- Total of edge amounts received by `p`. -/
def recvBy (p : String) (E : List DebtEdge) : ℚ :=
  ((E.filter fun e => e.To = p).map DebtEdge.Amount).sum

/-- Net flow toward `p` in the debt matrix. -/
def edgeFlow (p : String) (E : List DebtEdge) : ℚ := recvBy p E - paidBy p E

/-- `p`'s net balance in the returned list, zero when absent. -/
def netOf (bal : Balances) (p : String) : ℚ :=
  ((findBal bal p).map MemberBalance.NetBalance).getD 0

/-- `p`'s paid total in the returned list, zero when absent. -/
def paidOf (bal : Balances) (p : String) : ℚ :=
  ((findBal bal p).map MemberBalance.TotalPaid).getD 0

/-- `p`'s owed total in the returned list, zero when absent. -/
def owedOf (bal : Balances) (p : String) : ℚ :=
  ((findBal bal p).map MemberBalance.TotalOwed).getD 0

/-- Sum of all net balances. -/
def netSum (bal : Balances) : ℚ := (bal.map MemberBalance.NetBalance).sum

theorem processBills_append (l1 l2 : List BillForBalance) :
    ∀ bal, processBills (l1 ++ l2) bal =
      match processBills l1 bal with
      | .error e => .error e
      | .ok bal' => processBills l2 bal' := by
  induction l1 with
  | nil => intro bal; simp [processBills]
  | cons b bs ih =>
    intro bal
    rw [List.cons_append]
    simp only [processBills]
    cases processBill bal b with
    | error e => rfl
    | ok bal' => exact ih bal'

/-- C8: a bill with an empty payer identifier is skipped entirely: the result
equals the result on the input with that bill removed, even when the skipped
bill would fail the split calculator (e.g. a zero subtotal). -/
theorem groupBalances_skip_payerless (bills1 bills2 : List BillForBalance)
    (b : BillForBalance) (settlements : List SettlementForBalance)
    (hb : b.PayerID = "") :
    CalculateGroupBalances (bills1 ++ b :: bills2) settlements =
      CalculateGroupBalances (bills1 ++ bills2) settlements := by
  unfold CalculateGroupBalances
  have h : ∀ bal, processBills (bills1 ++ b :: bills2) bal =
      processBills (bills1 ++ bills2) bal := by
    intro bal
    rw [processBills_append, processBills_append]
    cases processBills bills1 bal with
    | error e => rfl
    | ok bal' =>
      show processBills (b :: bills2) bal' = processBills bills2 bal'
      simp [processBills, processBill, hb]
  rw [h []]

/-- Witness for `groupBalances_skip_payerless`: a payerless zero-subtotal bill
is removed without error. -/
theorem groupBalances_skip_payerless_witness :
    CalculateGroupBalances ([] ++ (⟨5, 0, "", [], ["A"]⟩ : BillForBalance) :: []) [] =
      CalculateGroupBalances ([] ++ []) [] :=
  groupBalances_skip_payerless [] [] ⟨5, 0, "", [], ["A"]⟩ [] rfl

/-- C7 (amended): when a bill with a payer fails the split calculator, the
whole aggregation aborts with the split calculator's error wrapped by the
prefix "failed to calculate split: ", and no result is produced. -/
theorem groupBalances_error_propagation (bills1 : List BillForBalance)
    (b : BillForBalance) (bills2 : List BillForBalance)
    (settlements : List SettlementForBalance) (bal1 : Balances) (e : String)
    (h1 : processBills bills1 [] = .ok bal1)
    (hp : b.PayerID ≠ "")
    (he : CalculateSplit b.Items b.Total b.Subtotal b.Participants = .error e) :
    CalculateGroupBalances (bills1 ++ b :: bills2) settlements =
      .error ("failed to calculate split: " ++ e) := by
  have hfull : processBills (bills1 ++ b :: bills2) [] =
      .error ("failed to calculate split: " ++ e) := by
    rw [processBills_append, h1]
    simp [processBills, processBill, hp, he]
  unfold CalculateGroupBalances
  rw [hfull]

/-- C7, counterexample: the error surfaced for a zero-subtotal bill is the
wrapped message, not the split calculator's message unchanged. -/
theorem groupBalances_error_propagation_cex :
    CalculateGroupBalances [⟨1, 0, "A", [], ["A"]⟩] [] =
      .error ("failed to calculate split: subtotal cannot be zero") ∧
    CalculateGroupBalances [⟨1, 0, "A", [], ["A"]⟩] [] ≠
      .error "subtotal cannot be zero" := by
  have h : CalculateGroupBalances [⟨1, 0, "A", [], ["A"]⟩] [] =
      .error ("failed to calculate split: subtotal cannot be zero") := by
    norm_num +decide [CalculateGroupBalances, processBills, processBill, CalculateSplit]
  refine ⟨h, ?_⟩
  rw [h]
  simp

/-- Witness for `groupBalances_error_propagation` at a concrete failing bill. -/
theorem groupBalances_error_propagation_witness :
    CalculateGroupBalances ([] ++ (⟨1, 0, "A", [], ["A"]⟩ : BillForBalance) :: []) [] =
      .error ("failed to calculate split: " ++ "subtotal cannot be zero") :=
  groupBalances_error_propagation [] ⟨1, 0, "A", [], ["A"]⟩ [] [] [] _
    rfl (by simp) (by norm_num [CalculateSplit])

theorem min_residue_zero (db cb : ℚ) :
    db - min db cb = 0 ∨ cb - min db cb = 0 := by
  rcases min_choice db cb with h | h <;> [left; right] <;> rw [h] <;> ring

/-- C9: the greedy two-cursor matching loop terminates on every finite input:
because each step settles the minimum of the two current magnitudes, at least
one residue drops to zero (hence below the 0.01 epsilon) and that cursor
advances, so the fuel-indexed loop (the literal `for i < len(debtors) && j <
len(creditors)` loop) needs at most `|debtors| + |creditors|` iterations and
computes the total function `settle`; the loop ends when either list is
exhausted. -/
theorem settleLoop_terminates (n : Nat) :
    ∀ (debtors creditors : List (String × ℚ)),
      debtors.length + creditors.length ≤ n →
      settleLoop n debtors creditors = settle debtors creditors := by
  induction n with
  | zero =>
    intro d c h
    have hd : d = [] := List.eq_nil_of_length_eq_zero (by omega)
    subst hd
    cases c <;> simp [settleLoop, settle]
  | succ n ih =>
    intro d c h
    match d, c with
    | [], _ => simp [settleLoop, settle]
    | _ :: _, [] => simp [settleLoop, settle]
    | (d1, db) :: ds, (c1, cb) :: cs =>
      simp only [settleLoop, settle]
      simp only [List.length_cons] at h
      by_cases hA : db - min db cb < 1 / 100
      · by_cases hB : cb - min db cb < 1 / 100
        · rw [if_pos hA, if_pos hB, if_pos hA, if_pos hB,
            ih ds cs (by omega)]
        · rw [if_pos hA, if_neg hB, if_pos hA, if_neg hB,
            ih ds ((c1, cb - min db cb) :: cs) (by simp; omega)]
      · have hB : cb - min db cb < 1 / 100 := by
          rcases min_residue_zero db cb with h0 | h0
          · exact absurd (h0 ▸ (by norm_num : (0 : ℚ) < 1 / 100)) (by simpa using hA)
          · rw [h0]
            norm_num
        rw [if_neg hA, if_pos hB, if_neg hA,
          ih ((d1, db - min db cb) :: ds) cs (by simp; omega)]

/-- Witness for `settleLoop_terminates` at a concrete pair of lists. -/
theorem settleLoop_terminates_witness :
    settleLoop 2 [("B", (40 : ℚ))] [("A", 30)] = settle [("B", 40)] [("A", 30)] :=
  settleLoop_terminates 2 [("B", 40)] [("A", 30)] (by norm_num)

/-! ### Lemmas about the balances map -/

theorem findBal_name {bal : Balances} {p : String} {b : MemberBalance}
    (h : findBal bal p = some b) : b.MemberName = p ∧ b ∈ bal := by
  induction bal with
  | nil => simp [findBal] at h
  | cons x t ih =>
    by_cases hx : x.MemberName = p
    · rw [findBal, if_pos hx] at h
      obtain rfl := Option.some.inj h
      exact ⟨hx, by simp⟩
    · rw [findBal, if_neg hx] at h
      obtain ⟨h1, h2⟩ := ih h
      exact ⟨h1, by simp [h2]⟩

theorem findBal_isSome_iff {bal : Balances} {p : String} :
    (findBal bal p).isSome = true ↔ p ∈ balNames bal := by
  induction bal with
  | nil => simp [findBal, balNames]
  | cons x t ih =>
    by_cases hx : x.MemberName = p
    · simp [findBal, balNames, hx]
    · simp only [findBal, if_neg hx, balNames, List.map_cons, List.mem_cons] at *
      rw [ih]
      constructor
      · exact Or.inr
      · rintro (hp | hp)
        · exact absurd hp.symm hx
        · exact hp

theorem findBal_map (bal : Balances) (g : MemberBalance → MemberBalance)
    (hg : ∀ b, (g b).MemberName = b.MemberName) (q : String) :
    findBal (bal.map g) q = (findBal bal q).map g := by
  induction bal with
  | nil => rfl
  | cons x t ih =>
    by_cases hx : x.MemberName = q
    · rw [List.map_cons, findBal, hg x, if_pos hx, findBal, if_pos hx]
      rfl
    · rw [List.map_cons, findBal, hg x, if_neg hx, findBal, if_neg hx, ih]

theorem balNames_map (bal : Balances) (g : MemberBalance → MemberBalance)
    (hg : ∀ b, (g b).MemberName = b.MemberName) :
    balNames (bal.map g) = balNames bal := by
  induction bal with
  | nil => rfl
  | cons x t ih =>
    simp only [balNames, List.map_cons] at ih ⊢
    rw [hg x, ih]

theorem findBal_append (l1 l2 : Balances) (q : String) :
    findBal (l1 ++ l2) q =
      match findBal l1 q with
      | some b => some b
      | none => findBal l2 q := by
  induction l1 with
  | nil => simp [findBal]
  | cons x t ih =>
    by_cases hx : x.MemberName = q
    · rw [List.cons_append, findBal, if_pos hx, findBal, if_pos hx]
    · rw [List.cons_append, findBal, if_neg hx, findBal, if_neg hx, ih]

theorem findBal_ensureBal_self (bal : Balances) (p : String) :
    (findBal (ensureBal bal p) p).isSome := by
  unfold ensureBal
  rcases hopt : findBal bal p with _ | b
  · rw [if_neg (by simp [hopt]), findBal_append, hopt]
    simp [findBal]
  · rw [if_pos (by simp [hopt]), hopt]
    rfl

theorem findBal_ensureBal_other (bal : Balances) (p q : String) (hq : q ≠ p) :
    findBal (ensureBal bal p) q = findBal bal q := by
  unfold ensureBal
  by_cases h : (findBal bal p).isSome
  · rw [if_pos h]
  · rw [if_neg h, findBal_append]
    rcases hopt : findBal bal q with _ | b
    · show findBal [⟨p, 0, 0, 0⟩] q = none
      have hne : p ≠ q := fun he => hq he.symm
      simp [findBal, hne]
    · rfl

theorem findBal_ensureBal_mono (bal : Balances) (p q : String)
    (h : (findBal bal q).isSome) : (findBal (ensureBal bal p) q).isSome := by
  by_cases hq : q = p
  · subst hq
    exact findBal_ensureBal_self bal q
  · rwa [findBal_ensureBal_other bal p q hq]

theorem paidOf_ensureBal (bal : Balances) (p q : String) :
    paidOf (ensureBal bal p) q = paidOf bal q := by
  by_cases hq : q = p
  · subst hq
    unfold paidOf ensureBal
    by_cases h : (findBal bal q).isSome
    · rw [if_pos h]
    · rw [if_neg h, findBal_append]
      rcases hopt : findBal bal q with _ | b
      · simp [findBal]
      · simp [hopt] at h
  · rw [paidOf, findBal_ensureBal_other bal p q hq, paidOf]

theorem owedOf_ensureBal (bal : Balances) (p q : String) :
    owedOf (ensureBal bal p) q = owedOf bal q := by
  by_cases hq : q = p
  · subst hq
    unfold owedOf ensureBal
    by_cases h : (findBal bal q).isSome
    · rw [if_pos h]
    · rw [if_neg h, findBal_append]
      rcases hopt : findBal bal q with _ | b
      · simp [findBal]
      · simp [hopt] at h
  · rw [owedOf, findBal_ensureBal_other bal p q hq, owedOf]

theorem findBal_addPaid (bal : Balances) (p : String) (a : ℚ) (q : String) :
    findBal (addPaid bal p a) q =
      (findBal bal q).map fun b =>
        if b.MemberName = p then { b with TotalPaid := b.TotalPaid + a } else b := by
  unfold addPaid
  apply findBal_map
  intro b
  by_cases hb : b.MemberName = p <;> simp [hb]

theorem findBal_addOwed (bal : Balances) (p : String) (a : ℚ) (q : String) :
    findBal (addOwed bal p a) q =
      (findBal bal q).map fun b =>
        if b.MemberName = p then { b with TotalOwed := b.TotalOwed + a } else b := by
  unfold addOwed
  apply findBal_map
  intro b
  by_cases hb : b.MemberName = p <;> simp [hb]

theorem paidOf_addPaid_self (bal : Balances) (p : String) (a : ℚ)
    (h : (findBal bal p).isSome) : paidOf (addPaid bal p a) p = paidOf bal p + a := by
  unfold paidOf
  rw [findBal_addPaid]
  rcases hopt : findBal bal p with _ | b
  · simp [hopt] at h
  · have hb := (findBal_name hopt).1
    simp [hb]

theorem paidOf_addPaid_other (bal : Balances) (p : String) (a : ℚ) (q : String)
    (hq : q ≠ p) : paidOf (addPaid bal p a) q = paidOf bal q := by
  unfold paidOf
  rw [findBal_addPaid]
  rcases hopt : findBal bal q with _ | b
  · rfl
  · have hb := (findBal_name hopt).1
    simp [hb, hq]

theorem owedOf_addPaid (bal : Balances) (p : String) (a : ℚ) (q : String) :
    owedOf (addPaid bal p a) q = owedOf bal q := by
  unfold owedOf
  rw [findBal_addPaid]
  rcases hopt : findBal bal q with _ | b
  · rfl
  · by_cases hb : b.MemberName = p <;> simp [hb]

theorem owedOf_addOwed_self (bal : Balances) (p : String) (a : ℚ)
    (h : (findBal bal p).isSome) : owedOf (addOwed bal p a) p = owedOf bal p + a := by
  unfold owedOf
  rw [findBal_addOwed]
  rcases hopt : findBal bal p with _ | b
  · simp [hopt] at h
  · have hb := (findBal_name hopt).1
    simp [hb]

theorem owedOf_addOwed_other (bal : Balances) (p : String) (a : ℚ) (q : String)
    (hq : q ≠ p) : owedOf (addOwed bal p a) q = owedOf bal q := by
  unfold owedOf
  rw [findBal_addOwed]
  rcases hopt : findBal bal q with _ | b
  · rfl
  · have hb := (findBal_name hopt).1
    simp [hb, hq]

theorem paidOf_addOwed (bal : Balances) (p : String) (a : ℚ) (q : String) :
    paidOf (addOwed bal p a) q = paidOf bal q := by
  unfold paidOf
  rw [findBal_addOwed]
  rcases hopt : findBal bal q with _ | b
  · rfl
  · by_cases hb : b.MemberName = p <;> simp [hb]

theorem findBal_computeNet (bal : Balances) (q : String) :
    findBal (computeNet bal) q =
      (findBal bal q).map fun b => { b with NetBalance := b.TotalPaid - b.TotalOwed } := by
  unfold computeNet
  exact findBal_map bal
    (fun b => { b with NetBalance := b.TotalPaid - b.TotalOwed }) (fun b => rfl) q

theorem netOf_computeNet (bal : Balances) (q : String) :
    netOf (computeNet bal) q = paidOf bal q - owedOf bal q := by
  unfold netOf paidOf owedOf
  rw [findBal_computeNet]
  rcases hopt : findBal bal q with _ | b
  · simp
  · simp

theorem paidOf_computeNet (bal : Balances) (q : String) :
    paidOf (computeNet bal) q = paidOf bal q := by
  unfold paidOf
  rw [findBal_computeNet]
  rcases hopt : findBal bal q with _ | b <;> simp

theorem owedOf_computeNet (bal : Balances) (q : String) :
    owedOf (computeNet bal) q = owedOf bal q := by
  unfold owedOf
  rw [findBal_computeNet]
  rcases hopt : findBal bal q with _ | b <;> simp

theorem balNames_addPaid (bal : Balances) (p : String) (a : ℚ) :
    balNames (addPaid bal p a) = balNames bal := by
  apply balNames_map
  intro b
  by_cases hb : b.MemberName = p <;> simp [hb]

theorem balNames_addOwed (bal : Balances) (p : String) (a : ℚ) :
    balNames (addOwed bal p a) = balNames bal := by
  apply balNames_map
  intro b
  by_cases hb : b.MemberName = p <;> simp [hb]

theorem balNames_computeNet (bal : Balances) :
    balNames (computeNet bal) = balNames bal := by
  apply balNames_map
  intro b
  rfl

theorem balNames_ensureBal (bal : Balances) (p : String) :
    balNames (ensureBal bal p) =
      if (findBal bal p).isSome then balNames bal else balNames bal ++ [p] := by
  unfold ensureBal
  by_cases h : (findBal bal p).isSome <;> simp [h, balNames]

theorem nodup_ensureBal {bal : Balances} (p : String)
    (h : (balNames bal).Nodup) : (balNames (ensureBal bal p)).Nodup := by
  rw [balNames_ensureBal]
  by_cases hp : (findBal bal p).isSome
  · rwa [if_pos hp]
  · rw [if_neg hp]
    have hmem : p ∉ balNames bal := fun hm => hp (findBal_isSome_iff.mpr hm)
    simpa [List.nodup_append] using ⟨h, hmem⟩

theorem nodup_applySettlement {bal : Balances} (st : SettlementForBalance)
    (h : (balNames bal).Nodup) : (balNames (applySettlement bal st)).Nodup := by
  unfold applySettlement
  rw [balNames_addOwed, balNames_addPaid]
  exact nodup_ensureBal _ (nodup_ensureBal _ h)

theorem nodup_processSettlements (ss : List SettlementForBalance) :
    ∀ bal : Balances, (balNames bal).Nodup →
      (balNames (processSettlements ss bal)).Nodup := by
  induction ss with
  | nil => intro bal h; exact h
  | cons s t ih =>
    intro bal h
    exact ih (applySettlement bal s) (nodup_applySettlement s h)

theorem nodup_owedFold (entries : Splits) :
    ∀ bal : Balances, (balNames bal).Nodup →
      (balNames (entries.foldl
        (fun bal entry => addOwed (ensureBal bal entry.1) entry.1 entry.2.Total)
        bal)).Nodup := by
  induction entries with
  | nil => intro bal h; exact h
  | cons e t ih =>
    intro bal h
    rw [List.foldl_cons]
    apply ih
    rw [balNames_addOwed]
    exact nodup_ensureBal _ h

theorem nodup_processBill {bal bal' : Balances} {bill : BillForBalance}
    (h : (balNames bal).Nodup) (hok : processBill bal bill = .ok bal') :
    (balNames bal').Nodup := by
  unfold processBill at hok
  by_cases hp : bill.PayerID = ""
  · rw [if_pos hp] at hok
    obtain rfl := Except.ok.inj hok
    exact h
  · rw [if_neg hp] at hok
    cases hsplit : CalculateSplit bill.Items bill.Total bill.Subtotal bill.Participants with
    | error e => rw [hsplit] at hok; exact absurd hok (by simp)
    | ok splitResult =>
      rw [hsplit] at hok
      obtain rfl := Except.ok.inj hok
      apply nodup_owedFold
      rw [balNames_addPaid]
      exact nodup_ensureBal _ h

theorem nodup_processBills (bills : List BillForBalance) :
    ∀ {bal bal' : Balances}, (balNames bal).Nodup →
      processBills bills bal = .ok bal' → (balNames bal').Nodup := by
  induction bills with
  | nil =>
    intro bal bal' h hok
    obtain rfl := Except.ok.inj hok
    exact h
  | cons b bs ih =>
    intro bal bal' h hok
    rw [processBills] at hok
    cases hpb : processBill bal b with
    | error e => rw [hpb] at hok; exact absurd hok (by simp)
    | ok bal1 =>
      rw [hpb] at hok
      exact ih (nodup_processBill h hpb) hok

/-- Sum over the balances map of `TotalPaid − TotalOwed`. -/
def pnSum (bal : Balances) : ℚ := (bal.map fun b => b.TotalPaid - b.TotalOwed).sum

theorem pnSum_ensureBal (bal : Balances) (p : String) :
    pnSum (ensureBal bal p) = pnSum bal := by
  unfold ensureBal
  by_cases h : (findBal bal p).isSome <;> simp [h, pnSum]

theorem addPaid_of_not_mem {bal : Balances} {p : String} (a : ℚ)
    (h : p ∉ balNames bal) : addPaid bal p a = bal := by
  induction bal with
  | nil => rfl
  | cons x t ih =>
    simp only [balNames, List.map_cons, List.mem_cons, not_or] at h
    unfold addPaid
    rw [List.map_cons, if_neg (fun hx => h.1 hx.symm)]
    have := ih (by simpa [balNames] using h.2)
    unfold addPaid at this
    rw [this]

theorem addOwed_of_not_mem {bal : Balances} {p : String} (a : ℚ)
    (h : p ∉ balNames bal) : addOwed bal p a = bal := by
  induction bal with
  | nil => rfl
  | cons x t ih =>
    simp only [balNames, List.map_cons, List.mem_cons, not_or] at h
    unfold addOwed
    rw [List.map_cons, if_neg (fun hx => h.1 hx.symm)]
    have := ih (by simpa [balNames] using h.2)
    unfold addOwed at this
    rw [this]

theorem pnSum_addPaid {bal : Balances} (hnd : (balNames bal).Nodup)
    (p : String) (a : ℚ) :
    pnSum (addPaid bal p a) = pnSum bal + if p ∈ balNames bal then a else 0 := by
  induction bal with
  | nil => simp [addPaid, pnSum, balNames]
  | cons x t ih =>
    have hnd' : (balNames t).Nodup :=
      (List.nodup_cons.mp (by simpa [balNames] using hnd)).2
    have hout : x.MemberName ∉ balNames t :=
      (List.nodup_cons.mp (by simpa [balNames] using hnd)).1
    by_cases hx : x.MemberName = p
    · have hpt : p ∉ balNames t := hx ▸ hout
      unfold addPaid
      rw [List.map_cons, if_pos hx]
      have ht : addPaid t p a = t := addPaid_of_not_mem a hpt
      unfold addPaid at ht
      rw [ht]
      have hmem : p ∈ balNames (x :: t) := by simp [balNames, hx]
      rw [if_pos hmem]
      simp only [pnSum, List.map_cons, List.sum_cons]
      ring
    · unfold addPaid
      rw [List.map_cons, if_neg hx]
      have hmem : (p ∈ balNames (x :: t)) ↔ p ∈ balNames t := by
        simp only [balNames, List.map_cons, List.mem_cons]
        exact or_iff_right (fun hp => hx hp.symm)
      unfold addPaid at ih
      simp only [pnSum, List.map_cons, List.sum_cons] at ih ⊢
      rw [ih hnd']
      by_cases hp : p ∈ balNames t <;> simp [hmem, hp] <;> ring

theorem pnSum_addOwed {bal : Balances} (hnd : (balNames bal).Nodup)
    (p : String) (a : ℚ) :
    pnSum (addOwed bal p a) = pnSum bal - (if p ∈ balNames bal then a else 0) := by
  induction bal with
  | nil => simp [addOwed, pnSum, balNames]
  | cons x t ih =>
    have hnd' : (balNames t).Nodup :=
      (List.nodup_cons.mp (by simpa [balNames] using hnd)).2
    have hout : x.MemberName ∉ balNames t :=
      (List.nodup_cons.mp (by simpa [balNames] using hnd)).1
    by_cases hx : x.MemberName = p
    · have hpt : p ∉ balNames t := hx ▸ hout
      unfold addOwed
      rw [List.map_cons, if_pos hx]
      have ht : addOwed t p a = t := addOwed_of_not_mem a hpt
      unfold addOwed at ht
      rw [ht]
      have hmem : p ∈ balNames (x :: t) := by simp [balNames, hx]
      rw [if_pos hmem]
      simp only [pnSum, List.map_cons, List.sum_cons]
      ring
    · unfold addOwed
      rw [List.map_cons, if_neg hx]
      have hmem : (p ∈ balNames (x :: t)) ↔ p ∈ balNames t := by
        simp only [balNames, List.map_cons, List.mem_cons]
        exact or_iff_right (fun hp => hx hp.symm)
      unfold addOwed at ih
      simp only [pnSum, List.map_cons, List.sum_cons] at ih ⊢
      rw [ih hnd']
      by_cases hp : p ∈ balNames t <;> simp [hmem, hp] <;> ring

theorem netSum_computeNet (bal : Balances) : netSum (computeNet bal) = pnSum bal := by
  induction bal with
  | nil => rfl
  | cons x t ih =>
    simp only [netSum, computeNet, pnSum, List.map_cons, List.sum_cons] at ih ⊢
    rw [ih]

theorem pnSum_applySettlement {bal : Balances} (st : SettlementForBalance)
    (hnd : (balNames bal).Nodup) :
    pnSum (applySettlement bal st) = pnSum bal := by
  unfold applySettlement
  set bal2 := ensureBal (ensureBal bal st.FromUserID) st.ToUserID with hbal2
  have hnd2 : (balNames bal2).Nodup := nodup_ensureBal _ (nodup_ensureBal _ hnd)
  have hfrom : st.FromUserID ∈ balNames bal2 := by
    apply findBal_isSome_iff.mp
    exact findBal_ensureBal_mono _ _ _ (findBal_ensureBal_self bal st.FromUserID)
  have hto : st.ToUserID ∈ balNames bal2 := by
    apply findBal_isSome_iff.mp
    exact findBal_ensureBal_self _ st.ToUserID
  have hnd3 : (balNames (addPaid bal2 st.FromUserID st.Amount)).Nodup := by
    rwa [balNames_addPaid]
  have hto3 : st.ToUserID ∈ balNames (addPaid bal2 st.FromUserID st.Amount) := by
    rwa [balNames_addPaid]
  rw [pnSum_addOwed hnd3, pnSum_addPaid hnd2, if_pos hfrom, if_pos hto3,
    hbal2, pnSum_ensureBal, pnSum_ensureBal]
  ring

theorem processSettlements_append (settlements : List SettlementForBalance)
    (st : SettlementForBalance) (bal : Balances) :
    processSettlements (settlements ++ [st]) bal =
      applySettlement (processSettlements settlements bal) st := by
  unfold processSettlements
  rw [List.foldl_append]
  rfl

/-- C5: appending one settlement of amount A from X to Y credits X's paid
total by A (and thereby X's net balance, via `TotalPaid`), debits Y's owed
total by A (and thereby Y's net balance, via `TotalOwed`), leaves every other
member's net balance unchanged, and keeps the sum of all net balances
unchanged; when X and Y are distinct people, X's net balance moves by exactly
+A and Y's by exactly −A. -/
theorem groupBalances_settlement_symmetry (bills : List BillForBalance)
    (settlements : List SettlementForBalance) (st : SettlementForBalance)
    (mb mb' : List MemberBalance) (E E' : List DebtEdge)
    (h1 : CalculateGroupBalances bills settlements = .ok (mb, E))
    (h2 : CalculateGroupBalances bills (settlements ++ [st]) = .ok (mb', E')) :
    paidOf mb' st.FromUserID = paidOf mb st.FromUserID + st.Amount ∧
    owedOf mb' st.ToUserID = owedOf mb st.ToUserID + st.Amount ∧
    (∀ z, z ≠ st.FromUserID → z ≠ st.ToUserID → netOf mb' z = netOf mb z) ∧
    netSum mb' = netSum mb ∧
    (st.FromUserID ≠ st.ToUserID →
      netOf mb' st.FromUserID = netOf mb st.FromUserID + st.Amount ∧
      netOf mb' st.ToUserID = netOf mb st.ToUserID - st.Amount) := by
  unfold CalculateGroupBalances at h1 h2
  cases hpb : processBills bills [] with
  | error e => rw [hpb] at h1; exact absurd h1 (by simp)
  | ok bal =>
    rw [hpb] at h1 h2
    obtain ⟨hmb, hE⟩ := Prod.mk.inj (Except.ok.inj h1)
    obtain ⟨hmb', hE'⟩ := Prod.mk.inj (Except.ok.inj h2)
    rw [processSettlements_append] at hmb'
    set B := processSettlements settlements bal with hB
    have hndbal : (balNames bal).Nodup :=
      nodup_processBills bills (by simp [balNames]) hpb
    have hndB : (balNames B).Nodup := nodup_processSettlements settlements bal hndbal
    subst hmb hmb' hE hE'
    set X := st.FromUserID
    set Y := st.ToUserID
    set A := st.Amount
    set B2 := ensureBal (ensureBal B X) Y with hB2
    have happ : applySettlement B st = addOwed (addPaid B2 X A) Y A := rfl
    have hX2 : (findBal B2 X).isSome :=
      findBal_ensureBal_mono _ _ _ (findBal_ensureBal_self B X)
    have hY2 : (findBal B2 Y).isSome := findBal_ensureBal_self _ Y
    have hY3 : (findBal (addPaid B2 X A) Y).isSome := by
      rw [findBal_isSome_iff, balNames_addPaid]
      exact findBal_isSome_iff.mp hY2
    refine ⟨?_, ?_, ?_, ?_, ?_⟩
    · rw [paidOf_computeNet, paidOf_computeNet, happ, paidOf_addOwed,
        paidOf_addPaid_self _ _ _ hX2, hB2, paidOf_ensureBal, paidOf_ensureBal]
    · rw [owedOf_computeNet, owedOf_computeNet, happ,
        owedOf_addOwed_self _ _ _ hY3, owedOf_addPaid, hB2, owedOf_ensureBal,
        owedOf_ensureBal]
    · intro z hzX hzY
      rw [netOf_computeNet, netOf_computeNet, happ, paidOf_addOwed,
        owedOf_addOwed_other _ _ _ _ hzY, paidOf_addPaid_other _ _ _ _ hzX,
        owedOf_addPaid, hB2, paidOf_ensureBal, paidOf_ensureBal,
        owedOf_ensureBal, owedOf_ensureBal]
    · rw [netSum_computeNet, netSum_computeNet, pnSum_applySettlement st hndB]
    · intro hXY
      constructor
      · rw [netOf_computeNet, netOf_computeNet, happ, paidOf_addOwed,
          owedOf_addOwed_other _ _ _ _ hXY, paidOf_addPaid_self _ _ _ hX2,
          owedOf_addPaid, hB2, paidOf_ensureBal, paidOf_ensureBal,
          owedOf_ensureBal, owedOf_ensureBal]
        ring
      · rw [netOf_computeNet, netOf_computeNet, happ, paidOf_addOwed,
          owedOf_addOwed_self _ _ _ hY3, owedOf_addPaid,
          paidOf_addPaid_other _ _ _ _ (fun hxy => hXY hxy.symm), hB2,
          paidOf_ensureBal, paidOf_ensureBal, owedOf_ensureBal, owedOf_ensureBal]
        ring

/-- Witness for `groupBalances_settlement_symmetry`: an empty bill list and a
single appended settlement X→Y of 5. -/
theorem groupBalances_settlement_symmetry_witness :
    paidOf [⟨"X", 5, 5, 0⟩, ⟨"Y", -5, 0, 5⟩]
        (SettlementForBalance.mk "X" "Y" 5).FromUserID =
      paidOf ([] : List MemberBalance) (SettlementForBalance.mk "X" "Y" 5).FromUserID +
        (SettlementForBalance.mk "X" "Y" 5).Amount ∧
    owedOf [⟨"X", 5, 5, 0⟩, ⟨"Y", -5, 0, 5⟩]
        (SettlementForBalance.mk "X" "Y" 5).ToUserID =
      owedOf ([] : List MemberBalance) (SettlementForBalance.mk "X" "Y" 5).ToUserID +
        (SettlementForBalance.mk "X" "Y" 5).Amount ∧
    (∀ z, z ≠ (SettlementForBalance.mk "X" "Y" 5).FromUserID →
      z ≠ (SettlementForBalance.mk "X" "Y" 5).ToUserID →
      netOf [⟨"X", 5, 5, 0⟩, ⟨"Y", -5, 0, 5⟩] z = netOf ([] : List MemberBalance) z) ∧
    netSum [⟨"X", 5, 5, 0⟩, ⟨"Y", -5, 0, 5⟩] = netSum ([] : List MemberBalance) ∧
    ((SettlementForBalance.mk "X" "Y" 5).FromUserID ≠
        (SettlementForBalance.mk "X" "Y" 5).ToUserID →
      netOf [⟨"X", 5, 5, 0⟩, ⟨"Y", -5, 0, 5⟩]
          (SettlementForBalance.mk "X" "Y" 5).FromUserID =
        netOf ([] : List MemberBalance) (SettlementForBalance.mk "X" "Y" 5).FromUserID +
          (SettlementForBalance.mk "X" "Y" 5).Amount ∧
      netOf [⟨"X", 5, 5, 0⟩, ⟨"Y", -5, 0, 5⟩]
          (SettlementForBalance.mk "X" "Y" 5).ToUserID =
        netOf ([] : List MemberBalance) (SettlementForBalance.mk "X" "Y" 5).ToUserID -
          (SettlementForBalance.mk "X" "Y" 5).Amount) :=
  groupBalances_settlement_symmetry [] [] ⟨"X", "Y", 5⟩ [] [⟨"X", 5, 5, 0⟩, ⟨"Y", -5, 0, 5⟩]
    [] [⟨"Y", "X", 5⟩]
    (by norm_num +decide [CalculateGroupBalances, processBills, processSettlements,
      applySettlement, ensureBal, findBal, addPaid, addOwed, computeNet, settle])
    (by norm_num +decide [CalculateGroupBalances, processBills, processSettlements,
      applySettlement, ensureBal, findBal, addPaid, addOwed, computeNet, settle])

/-! ### Lemmas about the greedy matching loop -/

/-- Total magnitude carried by a debtor/creditor list. -/
def sumMags (l : List (String × ℚ)) : ℚ := (l.map Prod.snd).sum

theorem sumMags_cons (x : String × ℚ) (t : List (String × ℚ)) :
    sumMags (x :: t) = x.2 + sumMags t := by
  simp [sumMags]

theorem paidBy_append (p : String) (E1 E2 : List DebtEdge) :
    paidBy p (E1 ++ E2) = paidBy p E1 + paidBy p E2 := by
  simp [paidBy, List.filter_append]

theorem recvBy_append (p : String) (E1 E2 : List DebtEdge) :
    recvBy p (E1 ++ E2) = recvBy p E1 + recvBy p E2 := by
  simp [recvBy, List.filter_append]

theorem paidBy_single (p d c : String) (amt : ℚ) :
    paidBy p [⟨d, c, amt⟩] = if d = p then amt else 0 := by
  by_cases h : d = p <;> simp [paidBy, h]

theorem recvBy_single (p d c : String) (amt : ℚ) :
    recvBy p [⟨d, c, amt⟩] = if c = p then amt else 0 := by
  by_cases h : c = p <;> simp [recvBy, h]

theorem paidBy_eq_zero {p : String} {E : List DebtEdge}
    (h : ∀ e ∈ E, e.From ≠ p) : paidBy p E = 0 := by
  unfold paidBy
  have hnil : E.filter (fun e => e.From = p) = [] :=
    List.filter_eq_nil_iff.mpr (by intro e he; simpa using h e he)
  rw [hnil]
  rfl

theorem recvBy_eq_zero {p : String} {E : List DebtEdge}
    (h : ∀ e ∈ E, e.To ≠ p) : recvBy p E = 0 := by
  unfold recvBy
  have hnil : E.filter (fun e => e.To = p) = [] :=
    List.filter_eq_nil_iff.mpr (by intro e he; simpa using h e he)
  rw [hnil]
  rfl

theorem settleLoop_mem (n : Nat) :
    ∀ (D C : List (String × ℚ)) (e : DebtEdge), e ∈ settleLoop n D C →
      e.From ∈ D.map Prod.fst ∧ e.To ∈ C.map Prod.fst := by
  induction n with
  | zero => intro D C e he; simp [settleLoop] at he
  | succ n ih =>
    intro D C e he
    match D, C with
    | [], _ => simp [settleLoop] at he
    | _ :: _, [] => simp [settleLoop] at he
    | (d1, db) :: ds, (c1, cb) :: cs =>
      simp only [settleLoop] at he
      rcases List.mem_append.mp he with h1 | h1
      · by_cases hemit : 1 / 100 < min db cb
        · rw [if_pos hemit] at h1
          obtain rfl := List.mem_singleton.mp h1
          exact ⟨by simp, by simp⟩
        · rw [if_neg hemit] at h1
          simp at h1
      · obtain ⟨hf, ht⟩ := ih _ _ e h1
        constructor
        · by_cases hA : db - min db cb < 1 / 100
          · rw [if_pos hA] at hf
            simp only [List.map_cons, List.mem_cons]
            exact Or.inr hf
          · rw [if_neg hA] at hf
            simpa using hf
        · by_cases hB : cb - min db cb < 1 / 100
          · rw [if_pos hB] at ht
            simp only [List.map_cons, List.mem_cons]
            exact Or.inr ht
          · rw [if_neg hB] at ht
            simpa using ht

theorem paidBy_settleLoop_eq_zero {p : String} (n : Nat)
    (D C : List (String × ℚ)) (hp : p ∉ D.map Prod.fst) :
    paidBy p (settleLoop n D C) = 0 :=
  paidBy_eq_zero (fun e he hf => hp (hf ▸ (settleLoop_mem n D C e he).1))

theorem recvBy_settleLoop_eq_zero {p : String} (n : Nat)
    (D C : List (String × ℚ)) (hp : p ∉ C.map Prod.fst) :
    recvBy p (settleLoop n D C) = 0 :=
  recvBy_eq_zero (fun e he ht => hp (ht ▸ (settleLoop_mem n D C e he).2))

theorem single_le_sumMags {l : List (String × ℚ)} {p : String} {m : ℚ}
    (hmem : (p, m) ∈ l) (hpos : ∀ x ∈ l, 0 < x.2) : m ≤ sumMags l := by
  unfold sumMags
  exact List.single_le_sum (fun x hx => by
      obtain ⟨y, hy, rfl⟩ := List.mem_map.mp hx
      exact (hpos y hy).le)
    m (List.mem_map.mpr ⟨(p, m), hmem, rfl⟩)

theorem settleLoop_debtor_bound (n : Nat) :
    ∀ (D C : List (String × ℚ)), D.length + C.length ≤ n →
      (∀ x ∈ D, 0 < x.2) → (∀ x ∈ C, 0 < x.2) →
      (D.map Prod.fst).Nodup →
      ∀ p m, (p, m) ∈ D →
        paidBy p (settleLoop n D C) ≤ m ∧
        m - paidBy p (settleLoop n D C) ≤
          (1 / 100) * ((D.length : ℚ) + (C.length : ℚ) + 1) +
            max (sumMags D - sumMags C) 0 := by
  induction n with
  | zero =>
    intro D C h _ _ _ p m hpm
    have hD : D = [] := List.eq_nil_of_length_eq_zero (by omega)
    subst hD
    simp at hpm
  | succ n ih =>
    intro D C h hDpos hCpos hnd p m hpm
    match D, C with
    | [], _ => simp at hpm
    | (d1, db) :: ds, [] =>
      have h0 : paidBy p (settleLoop (n + 1) ((d1, db) :: ds) []) = 0 := by
        simp [settleLoop, paidBy]
      rw [h0]
      have hm : m ≤ sumMags ((d1, db) :: ds) := single_le_sumMags hpm hDpos
      have hC0 : sumMags ([] : List (String × ℚ)) = 0 := rfl
      have hmax : sumMags ((d1, db) :: ds) - sumMags ([] : List (String × ℚ)) ≤
          max (sumMags ((d1, db) :: ds) - sumMags ([] : List (String × ℚ))) 0 :=
        le_max_left _ _
      have hlen : (0 : ℚ) ≤
          (1 / 100) * ((((d1, db) :: ds).length : ℚ) + (([] : List (String × ℚ)).length : ℚ) + 1) := by
        positivity
      exact ⟨(hDpos _ hpm).le, by linarith⟩
    | (d1, db) :: ds, (c1, cb) :: cs =>
      simp only [settleLoop]
      have hd1pos : 0 < db := hDpos (d1, db) (by simp)
      have hc1pos : 0 < cb := hCpos (c1, cb) (by simp)
      have hminpos : 0 < min db cb := lt_min hd1pos hc1pos
      have hdres : 0 ≤ db - min db cb := by
        have := min_le_left db cb
        linarith
      have hcres : 0 ≤ cb - min db cb := by
        have := min_le_right db cb
        linarith
      have hndtail : (ds.map Prod.fst).Nodup :=
        (List.nodup_cons.mp (by simpa using hnd)).2
      have hd1out : d1 ∉ ds.map Prod.fst :=
        (List.nodup_cons.mp (by simpa using hnd)).1
      have hKcast : ((((d1, db) :: ds).length : ℚ)) + ((((c1, cb) :: cs).length : ℚ)) =
          ((ds.length : ℚ)) + ((cs.length : ℚ)) + 2 := by
        push_cast [List.length_cons]
        ring
      have hdlen : (0 : ℚ) ≤ ((ds.length : ℚ)) := by positivity
      have hclen : (0 : ℚ) ≤ ((cs.length : ℚ)) := by positivity
      have hmax0 : (0 : ℚ) ≤ max (sumMags ((d1, db) :: ds) - sumMags ((c1, cb) :: cs)) 0 :=
        le_max_right _ _
      have hsum1 : sumMags ((d1, db) :: ds) = db + sumMags ds := sumMags_cons _ _
      have hsum2 : sumMags ((c1, cb) :: cs) = cb + sumMags cs := sumMags_cons _ _
      have hdspos : ∀ x ∈ ds, 0 < x.2 := fun x hx => hDpos x (List.mem_cons_of_mem _ hx)
      have hcspos : ∀ x ∈ cs, 0 < x.2 := fun x hx => hCpos x (List.mem_cons_of_mem _ hx)
      rcases List.mem_cons.mp hpm with heq | htail
      · -- the tracked debtor is the current head
        obtain ⟨hpd, hmd⟩ := Prod.mk.inj heq
        rw [hpd, hmd]
        have hev : paidBy d1 (if 1 / 100 < min db cb
              then [DebtEdge.mk d1 c1 (min db cb)] else []) =
            if 1 / 100 < min db cb then min db cb else 0 := by
          by_cases hemit : 1 / 100 < min db cb
          · rw [if_pos hemit, if_pos hemit, paidBy_single, if_pos rfl]
          · rw [if_neg hemit, if_neg hemit]
            rfl
        by_cases hA : db - min db cb < 1 / 100
        · rw [if_pos hA, paidBy_append, hev,
            paidBy_settleLoop_eq_zero n _ _ (by simpa using hd1out)]
          by_cases hemit : 1 / 100 < min db cb
          · rw [if_pos hemit]
            have hminle := min_le_left db cb
            exact ⟨by linarith, by linarith⟩
          · rw [if_neg hemit]
            have hle : min db cb ≤ 1 / 100 := not_lt.mp hemit
            exact ⟨by linarith, by linarith⟩
        · -- the head debtor stays; the whole credit is consumed
          have hacb : min db cb = cb := by
            rcases min_residue_zero db cb with h0 | h0
            · exact absurd (by linarith : db - min db cb < 1 / 100) hA
            · linarith
          have hB : cb - min db cb < 1 / 100 := by
            rw [hacb]
            norm_num
          rw [if_neg hA, if_pos hB, paidBy_append, hev]
          have hd'pos : ∀ x ∈ ((d1, db - min db cb) :: ds), 0 < x.2 := by
            intro x hx
            rcases List.mem_cons.mp hx with rfl | hx
            · have := not_lt.mp hA
              show (0 : ℚ) < db - min db cb
              linarith
            · exact hdspos x hx
          have hlen' : ((d1, db - min db cb) :: ds).length + cs.length ≤ n := by
            simp only [List.length_cons] at h ⊢
            omega
          obtain ⟨ihle, ihbound⟩ := ih ((d1, db - min db cb) :: ds) cs hlen'
            hd'pos hcspos (by simpa using hnd) d1 (db - min db cb) (by simp)
          have hsums : sumMags ((d1, db - min db cb) :: ds) - sumMags cs =
              sumMags ((d1, db) :: ds) - sumMags ((c1, cb) :: cs) := by
            simp only [sumMags_cons]
            rw [hacb]
            ring
          rw [hsums] at ihbound
          have hlc1 : ((((d1, db - min db cb) :: ds).length : ℚ)) =
              ((((d1, db) :: ds).length : ℚ)) := by
            push_cast [List.length_cons]
            ring
          have hlc2 : ((cs.length : ℚ)) = ((((c1, cb) :: cs).length : ℚ)) - 1 := by
            push_cast [List.length_cons]
            ring
          rw [hlc1, hlc2] at ihbound
          by_cases hemit : 1 / 100 < min db cb
          · rw [if_pos hemit]
            exact ⟨by linarith, by linarith⟩
          · rw [if_neg hemit]
            have hle : min db cb ≤ 1 / 100 := not_lt.mp hemit
            exact ⟨by linarith, by linarith⟩
      · -- the tracked debtor sits further down the list
        have hpind : p ∈ ds.map Prod.fst := List.mem_map.mpr ⟨(p, m), htail, rfl⟩
        have hd1p : ¬(d1 = p) := fun he => hd1out (he ▸ hpind)
        have hev0 : paidBy p (if 1 / 100 < min db cb
              then [DebtEdge.mk d1 c1 (min db cb)] else []) = 0 := by
          by_cases hemit : 1 / 100 < min db cb
          · rw [if_pos hemit, paidBy_single, if_neg hd1p]
          · rw [if_neg hemit]
            rfl
        rw [paidBy_append, hev0, zero_add]
        by_cases hA : db - min db cb < 1 / 100
        · by_cases hB : cb - min db cb < 1 / 100
          · rw [if_pos hA, if_pos hB]
            obtain ⟨ihle, ihbound⟩ := ih ds cs
              (by simp only [List.length_cons] at h; omega) hdspos hcspos hndtail p m htail
            refine ⟨ihle, ?_⟩
            have hcbdb : cb - db ≤ 1 / 100 := by
              have := min_le_left db cb
              linarith
            have hdsle : sumMags ds - sumMags cs ≤
                max (sumMags ((d1, db) :: ds) - sumMags ((c1, cb) :: cs)) 0 + 1 / 100 := by
              have h1 := le_max_left
                (sumMags ((d1, db) :: ds) - sumMags ((c1, cb) :: cs)) 0
              linarith
            have hmaxle : max (sumMags ds - sumMags cs) 0 ≤
                max (sumMags ((d1, db) :: ds) - sumMags ((c1, cb) :: cs)) 0 + 1 / 100 :=
              max_le hdsle (by linarith)
            linarith
          · rw [if_pos hA, if_neg hB]
            have hadb : min db cb = db := by
              rcases min_residue_zero db cb with h0 | h0
              · linarith
              · exact absurd (by linarith : cb - min db cb < 1 / 100) hB
            have hc'pos : ∀ x ∈ ((c1, cb - min db cb) :: cs), 0 < x.2 := by
              intro x hx
              rcases List.mem_cons.mp hx with rfl | hx
              · have := not_lt.mp hB
                show (0 : ℚ) < cb - min db cb
                linarith
              · exact hcspos x hx
            obtain ⟨ihle, ihbound⟩ := ih ds ((c1, cb - min db cb) :: cs)
              (by simp only [List.length_cons] at h ⊢; omega) hdspos hc'pos hndtail p m htail
            refine ⟨ihle, ?_⟩
            have hsums : sumMags ds - sumMags ((c1, cb - min db cb) :: cs) =
                sumMags ((d1, db) :: ds) - sumMags ((c1, cb) :: cs) := by
              simp only [sumMags_cons]
              rw [hadb]
              ring
            rw [hsums] at ihbound
            have hlc1 : ((((c1, cb - min db cb) :: cs).length : ℚ)) =
                ((cs.length : ℚ)) + 1 := by
              push_cast [List.length_cons]
              ring
            rw [hlc1] at ihbound
            linarith
        · have hacb : min db cb = cb := by
            rcases min_residue_zero db cb with h0 | h0
            · exact absurd (by linarith : db - min db cb < 1 / 100) hA
            · linarith
          have hB : cb - min db cb < 1 / 100 := by
            rw [hacb]
            norm_num
          rw [if_neg hA, if_pos hB]
          have hd'pos : ∀ x ∈ ((d1, db - min db cb) :: ds), 0 < x.2 := by
            intro x hx
            rcases List.mem_cons.mp hx with rfl | hx
            · have := not_lt.mp hA
              show (0 : ℚ) < db - min db cb
              linarith
            · exact hdspos x hx
          obtain ⟨ihle, ihbound⟩ := ih ((d1, db - min db cb) :: ds) cs
            (by simp only [List.length_cons] at h ⊢; omega) hd'pos hcspos
            (by simpa using hnd) p m (List.mem_cons_of_mem _ htail)
          refine ⟨ihle, ?_⟩
          have hsums : sumMags ((d1, db - min db cb) :: ds) - sumMags cs =
              sumMags ((d1, db) :: ds) - sumMags ((c1, cb) :: cs) := by
            simp only [sumMags_cons]
            rw [hacb]
            ring
          rw [hsums] at ihbound
          have hlc1 : ((((d1, db - min db cb) :: ds).length : ℚ)) =
              ((ds.length : ℚ)) + 1 := by
            push_cast [List.length_cons]
            ring
          rw [hlc1] at ihbound
          linarith

theorem settleLoop_creditor_bound (n : Nat) :
    ∀ (D C : List (String × ℚ)), D.length + C.length ≤ n →
      (∀ x ∈ D, 0 < x.2) → (∀ x ∈ C, 0 < x.2) →
      (C.map Prod.fst).Nodup →
      ∀ p m, (p, m) ∈ C →
        recvBy p (settleLoop n D C) ≤ m ∧
        m - recvBy p (settleLoop n D C) ≤
          (1 / 100) * ((D.length : ℚ) + (C.length : ℚ) + 1) +
            max (sumMags C - sumMags D) 0 := by
  induction n with
  | zero =>
    intro D C h _ _ _ p m hpm
    have hC : C = [] := List.eq_nil_of_length_eq_zero (by omega)
    subst hC
    simp at hpm
  | succ n ih =>
    intro D C h hDpos hCpos hnd p m hpm
    match D, C with
    | _, [] => simp at hpm
    | [], (c1, cb) :: cs =>
      have h0 : recvBy p (settleLoop (n + 1) [] ((c1, cb) :: cs)) = 0 := by
        simp [settleLoop, recvBy]
      rw [h0]
      have hm : m ≤ sumMags ((c1, cb) :: cs) := single_le_sumMags hpm hCpos
      have hD0 : sumMags ([] : List (String × ℚ)) = 0 := rfl
      have hmax : sumMags ((c1, cb) :: cs) - sumMags ([] : List (String × ℚ)) ≤
          max (sumMags ((c1, cb) :: cs) - sumMags ([] : List (String × ℚ))) 0 :=
        le_max_left _ _
      have hlen : (0 : ℚ) ≤
          (1 / 100) * ((([] : List (String × ℚ)).length : ℚ) +
            (((c1, cb) :: cs).length : ℚ) + 1) := by
        positivity
      exact ⟨(hCpos _ hpm).le, by linarith⟩
    | (d1, db) :: ds, (c1, cb) :: cs =>
      simp only [settleLoop]
      have hd1pos : 0 < db := hDpos (d1, db) (by simp)
      have hc1pos : 0 < cb := hCpos (c1, cb) (by simp)
      have hminpos : 0 < min db cb := lt_min hd1pos hc1pos
      have hdres : 0 ≤ db - min db cb := by
        have := min_le_left db cb
        linarith
      have hcres : 0 ≤ cb - min db cb := by
        have := min_le_right db cb
        linarith
      have hndtail : (cs.map Prod.fst).Nodup :=
        (List.nodup_cons.mp (by simpa using hnd)).2
      have hc1out : c1 ∉ cs.map Prod.fst :=
        (List.nodup_cons.mp (by simpa using hnd)).1
      have hdlen : (0 : ℚ) ≤ ((ds.length : ℚ)) := by positivity
      have hclen : (0 : ℚ) ≤ ((cs.length : ℚ)) := by positivity
      have hKcast : ((((d1, db) :: ds).length : ℚ)) + ((((c1, cb) :: cs).length : ℚ)) =
          ((ds.length : ℚ)) + ((cs.length : ℚ)) + 2 := by
        push_cast [List.length_cons]
        ring
      have hmax0 : (0 : ℚ) ≤ max (sumMags ((c1, cb) :: cs) - sumMags ((d1, db) :: ds)) 0 :=
        le_max_right _ _
      have hsum1 : sumMags ((d1, db) :: ds) = db + sumMags ds := sumMags_cons _ _
      have hsum2 : sumMags ((c1, cb) :: cs) = cb + sumMags cs := sumMags_cons _ _
      have hdspos : ∀ x ∈ ds, 0 < x.2 := fun x hx => hDpos x (List.mem_cons_of_mem _ hx)
      have hcspos : ∀ x ∈ cs, 0 < x.2 := fun x hx => hCpos x (List.mem_cons_of_mem _ hx)
      rcases List.mem_cons.mp hpm with heq | htail
      · -- the tracked creditor is the current head
        obtain ⟨hpc, hmc⟩ := Prod.mk.inj heq
        rw [hpc, hmc]
        have hev : recvBy c1 (if 1 / 100 < min db cb
              then [DebtEdge.mk d1 c1 (min db cb)] else []) =
            if 1 / 100 < min db cb then min db cb else 0 := by
          by_cases hemit : 1 / 100 < min db cb
          · rw [if_pos hemit, if_pos hemit, recvBy_single, if_pos rfl]
          · rw [if_neg hemit, if_neg hemit]
            rfl
        by_cases hB : cb - min db cb < 1 / 100
        · rw [if_pos hB, recvBy_append, hev,
            recvBy_settleLoop_eq_zero n _ _ (by simpa using hc1out)]
          by_cases hemit : 1 / 100 < min db cb
          · rw [if_pos hemit]
            have hminle := min_le_right db cb
            exact ⟨by linarith, by linarith⟩
          · rw [if_neg hemit]
            have hle : min db cb ≤ 1 / 100 := not_lt.mp hemit
            exact ⟨by linarith, by linarith⟩
        · -- the head creditor stays; the whole debt is consumed
          have hadb : min db cb = db := by
            rcases min_residue_zero db cb with h0 | h0
            · linarith
            · exact absurd (by linarith : cb - min db cb < 1 / 100) hB
          have hA : db - min db cb < 1 / 100 := by
            rw [hadb]
            norm_num
          rw [if_pos hA, if_neg hB, recvBy_append, hev]
          have hc'pos : ∀ x ∈ ((c1, cb - min db cb) :: cs), 0 < x.2 := by
            intro x hx
            rcases List.mem_cons.mp hx with rfl | hx
            · have := not_lt.mp hB
              show (0 : ℚ) < cb - min db cb
              linarith
            · exact hcspos x hx
          have hlen' : ds.length + ((c1, cb - min db cb) :: cs).length ≤ n := by
            simp only [List.length_cons] at h ⊢
            omega
          obtain ⟨ihle, ihbound⟩ := ih ds ((c1, cb - min db cb) :: cs) hlen'
            hdspos hc'pos (by simpa using hnd) c1 (cb - min db cb) (by simp)
          have hsums : sumMags ((c1, cb - min db cb) :: cs) - sumMags ds =
              sumMags ((c1, cb) :: cs) - sumMags ((d1, db) :: ds) := by
            simp only [sumMags_cons]
            rw [hadb]
            ring
          rw [hsums] at ihbound
          have hlc1 : ((((c1, cb - min db cb) :: cs).length : ℚ)) =
              ((((c1, cb) :: cs).length : ℚ)) := by
            push_cast [List.length_cons]
            ring
          have hlc2 : ((ds.length : ℚ)) = ((((d1, db) :: ds).length : ℚ)) - 1 := by
            push_cast [List.length_cons]
            ring
          rw [hlc1, hlc2] at ihbound
          by_cases hemit : 1 / 100 < min db cb
          · rw [if_pos hemit]
            exact ⟨by linarith, by linarith⟩
          · rw [if_neg hemit]
            have hle : min db cb ≤ 1 / 100 := not_lt.mp hemit
            exact ⟨by linarith, by linarith⟩
      · -- the tracked creditor sits further down the list
        have hpind : p ∈ cs.map Prod.fst := List.mem_map.mpr ⟨(p, m), htail, rfl⟩
        have hc1p : ¬(c1 = p) := fun he => hc1out (he ▸ hpind)
        have hev0 : recvBy p (if 1 / 100 < min db cb
              then [DebtEdge.mk d1 c1 (min db cb)] else []) = 0 := by
          by_cases hemit : 1 / 100 < min db cb
          · rw [if_pos hemit, recvBy_single, if_neg hc1p]
          · rw [if_neg hemit]
            rfl
        rw [recvBy_append, hev0, zero_add]
        by_cases hA : db - min db cb < 1 / 100
        · by_cases hB : cb - min db cb < 1 / 100
          · rw [if_pos hA, if_pos hB]
            obtain ⟨ihle, ihbound⟩ := ih ds cs
              (by simp only [List.length_cons] at h; omega) hdspos hcspos hndtail p m htail
            refine ⟨ihle, ?_⟩
            have hdbcb : db - cb ≤ 1 / 100 := by
              have := min_le_right db cb
              linarith
            have hcsle : sumMags cs - sumMags ds ≤
                max (sumMags ((c1, cb) :: cs) - sumMags ((d1, db) :: ds)) 0 + 1 / 100 := by
              have h1 := le_max_left
                (sumMags ((c1, cb) :: cs) - sumMags ((d1, db) :: ds)) 0
              linarith
            have hmaxle : max (sumMags cs - sumMags ds) 0 ≤
                max (sumMags ((c1, cb) :: cs) - sumMags ((d1, db) :: ds)) 0 + 1 / 100 :=
              max_le hcsle (by linarith)
            linarith
          · rw [if_pos hA, if_neg hB]
            have hadb : min db cb = db := by
              rcases min_residue_zero db cb with h0 | h0
              · linarith
              · exact absurd (by linarith : cb - min db cb < 1 / 100) hB
            have hc'pos : ∀ x ∈ ((c1, cb - min db cb) :: cs), 0 < x.2 := by
              intro x hx
              rcases List.mem_cons.mp hx with rfl | hx
              · have := not_lt.mp hB
                show (0 : ℚ) < cb - min db cb
                linarith
              · exact hcspos x hx
            obtain ⟨ihle, ihbound⟩ := ih ds ((c1, cb - min db cb) :: cs)
              (by simp only [List.length_cons] at h ⊢; omega) hdspos hc'pos
              (by simpa using hnd) p m (List.mem_cons_of_mem _ htail)
            refine ⟨ihle, ?_⟩
            have hsums : sumMags ((c1, cb - min db cb) :: cs) - sumMags ds =
                sumMags ((c1, cb) :: cs) - sumMags ((d1, db) :: ds) := by
              simp only [sumMags_cons]
              rw [hadb]
              ring
            rw [hsums] at ihbound
            have hlc1 : ((((c1, cb - min db cb) :: cs).length : ℚ)) =
                ((cs.length : ℚ)) + 1 := by
              push_cast [List.length_cons]
              ring
            rw [hlc1] at ihbound
            linarith
        · have hacb : min db cb = cb := by
            rcases min_residue_zero db cb with h0 | h0
            · exact absurd (by linarith : db - min db cb < 1 / 100) hA
            · linarith
          have hB : cb - min db cb < 1 / 100 := by
            rw [hacb]
            norm_num
          rw [if_neg hA, if_pos hB]
          have hd'pos : ∀ x ∈ ((d1, db - min db cb) :: ds), 0 < x.2 := by
            intro x hx
            rcases List.mem_cons.mp hx with rfl | hx
            · have := not_lt.mp hA
              show (0 : ℚ) < db - min db cb
              linarith
            · exact hdspos x hx
          obtain ⟨ihle, ihbound⟩ := ih ((d1, db - min db cb) :: ds) cs
            (by simp only [List.length_cons] at h ⊢; omega) hd'pos hcspos hndtail p m htail
          refine ⟨ihle, ?_⟩
          have hsums : sumMags cs - sumMags ((d1, db - min db cb) :: ds) =
              sumMags ((c1, cb) :: cs) - sumMags ((d1, db) :: ds) := by
            simp only [sumMags_cons]
            rw [hacb]
            ring
          rw [hsums] at ihbound
          have hlc1 : ((((d1, db - min db cb) :: ds).length : ℚ)) =
              ((ds.length : ℚ)) + 1 := by
            push_cast [List.length_cons]
            ring
          rw [hlc1] at ihbound
          linarith

theorem netSum_filter_split (mb : List MemberBalance) :
    ((mb.filter fun b => b.NetBalance < 0).map MemberBalance.NetBalance).sum +
      ((mb.filter fun b => 0 < b.NetBalance).map MemberBalance.NetBalance).sum =
      netSum mb := by
  induction mb with
  | nil => simp [netSum]
  | cons b t ih =>
    rcases lt_trichotomy b.NetBalance 0 with hb | hb | hb
    · have h1 : (decide (b.NetBalance < 0)) = true := decide_eq_true hb
      have h2 : (decide (0 < b.NetBalance)) = false := decide_eq_false (by linarith)
      simp [List.filter_cons, h1, h2, netSum] at ih ⊢
      linarith
    · have h1 : (decide (b.NetBalance < 0)) = false := decide_eq_false (by linarith)
      have h2 : (decide (0 < b.NetBalance)) = false := decide_eq_false (by linarith)
      simp [List.filter_cons, h1, h2, netSum] at ih ⊢
      linarith
    · have h1 : (decide (b.NetBalance < 0)) = false := decide_eq_false (by linarith)
      have h2 : (decide (0 < b.NetBalance)) = true := decide_eq_true hb
      simp [List.filter_cons, h1, h2, netSum] at ih ⊢
      linarith

theorem sumMags_map_negOf (l : List MemberBalance) :
    sumMags (l.map fun b => (b.MemberName, -b.NetBalance)) =
      -((l.map MemberBalance.NetBalance).sum) := by
  induction l with
  | nil => simp [sumMags]
  | cons b t ih =>
    simp only [sumMags, List.map_cons, List.map_map, List.sum_cons] at ih ⊢
    rw [ih]
    ring

theorem sumMags_map_posOf (l : List MemberBalance) :
    sumMags (l.map fun b => (b.MemberName, b.NetBalance)) =
      (l.map MemberBalance.NetBalance).sum := by
  induction l with
  | nil => simp [sumMags]
  | cons b t ih =>
    simp only [sumMags, List.map_cons, List.map_map, List.sum_cons] at ih ⊢
    rw [ih]

theorem length_filter_add_le (mb : List MemberBalance) :
    (mb.filter fun b => b.NetBalance < 0).length +
      (mb.filter fun b => 0 < b.NetBalance).length ≤ mb.length := by
  induction mb with
  | nil => simp
  | cons b t ih =>
    rcases lt_trichotomy b.NetBalance 0 with hb | hb | hb
    · have h1 : (decide (b.NetBalance < 0)) = true := decide_eq_true hb
      have h2 : (decide (0 < b.NetBalance)) = false := decide_eq_false (by linarith)
      simp [List.filter_cons, h1, h2]
      omega
    · have h1 : (decide (b.NetBalance < 0)) = false := decide_eq_false (by linarith)
      have h2 : (decide (0 < b.NetBalance)) = false := decide_eq_false (by linarith)
      simp [List.filter_cons, h1, h2]
      omega
    · have h1 : (decide (b.NetBalance < 0)) = false := decide_eq_false (by linarith)
      have h2 : (decide (0 < b.NetBalance)) = true := decide_eq_true hb
      simp [List.filter_cons, h1, h2]
      omega

/-- C4 (amended): for every successful `CalculateGroupBalances` call whose
returned net balances sum to zero, every member with a nonzero net balance
satisfies `|edge flow − net balance| ≤ 0.01 × (number of members + 1)`: the
claim's plain 0.01 bound does not hold because epsilon-suppressed settlements
and sub-epsilon residues can accumulate across members. -/
theorem groupBalances_debt_conservation (bills : List BillForBalance)
    (settlements : List SettlementForBalance) (mb : List MemberBalance)
    (E : List DebtEdge) (p : String) (b : MemberBalance)
    (h : CalculateGroupBalances bills settlements = .ok (mb, E))
    (hzero : netSum mb = 0)
    (hfind : findBal mb p = some b) (hnz : b.NetBalance ≠ 0) :
    |edgeFlow p E - b.NetBalance| ≤ (1 / 100) * ((mb.length : ℚ) + 1) := by
  unfold CalculateGroupBalances at h
  cases hpb : processBills bills [] with
  | error e => rw [hpb] at h; exact absurd h (by simp)
  | ok bal =>
    rw [hpb] at h
    obtain ⟨hmb, hE⟩ := Prod.mk.inj (Except.ok.inj h)
    have hndmb : (balNames mb).Nodup := by
      rw [← hmb, balNames_computeNet]
      exact nodup_processSettlements settlements bal
        (nodup_processBills bills (by simp [balNames]) hpb)
    rw [hmb] at hE
    set Dl := (mb.filter fun b => b.NetBalance < 0).map
      (fun b => (b.MemberName, -b.NetBalance)) with hDl
    set Cl := (mb.filter fun b => 0 < b.NetBalance).map
      (fun b => (b.MemberName, b.NetBalance)) with hCl
    have hDfst : Dl.map Prod.fst = (mb.filter fun b => b.NetBalance < 0).map
        MemberBalance.MemberName := by
      rw [hDl, List.map_map]
      rfl
    have hCfst : Cl.map Prod.fst = (mb.filter fun b => 0 < b.NetBalance).map
        MemberBalance.MemberName := by
      rw [hCl, List.map_map]
      rfl
    have hndD : (Dl.map Prod.fst).Nodup := by
      rw [hDfst]
      exact List.Nodup.sublist (List.Sublist.map _ (List.filter_sublist _)) hndmb
    have hndC : (Cl.map Prod.fst).Nodup := by
      rw [hCfst]
      exact List.Nodup.sublist (List.Sublist.map _ (List.filter_sublist _)) hndmb
    have hDpos : ∀ x ∈ Dl, 0 < x.2 := by
      intro x hx
      rw [hDl] at hx
      obtain ⟨y, hy, rfl⟩ := List.mem_map.mp hx
      have hyneg : y.NetBalance < 0 := by simpa using (List.mem_filter.mp hy).2
      show (0 : ℚ) < -y.NetBalance
      linarith
    have hCpos : ∀ x ∈ Cl, 0 < x.2 := by
      intro x hx
      rw [hCl] at hx
      obtain ⟨y, hy, rfl⟩ := List.mem_map.mp hx
      have hypos : 0 < y.NetBalance := by simpa using (List.mem_filter.mp hy).2
      exact hypos
    have hsumeq : sumMags Dl = sumMags Cl := by
      rw [hDl, hCl, sumMags_map_negOf, sumMags_map_posOf]
      have hsplit := netSum_filter_split mb
      rw [hzero] at hsplit
      linarith
    have hlenle : ((Dl.length : ℚ)) + ((Cl.length : ℚ)) + 1 ≤ ((mb.length : ℚ)) + 1 := by
      have h1 : Dl.length = (mb.filter fun b => b.NetBalance < 0).length := by
        rw [hDl, List.length_map]
      have h2 : Cl.length = (mb.filter fun b => 0 < b.NetBalance).length := by
        rw [hCl, List.length_map]
      have h3 := length_filter_add_le mb
      have h4 : (((mb.filter fun b => b.NetBalance < 0).length +
          (mb.filter fun b => 0 < b.NetBalance).length : ℕ) : ℚ) ≤
          ((mb.length : ℚ)) := Nat.cast_le.mpr h3
      push_cast at h4
      rw [h1, h2]
      linarith
    have hEeq : E = settleLoop (Dl.length + Cl.length) Dl Cl := by
      rw [← hE, settleLoop_terminates (Dl.length + Cl.length) Dl Cl le_rfl]
    obtain ⟨hbname, hbmem⟩ := findBal_name hfind
    have hinj := List.inj_on_of_nodup_map (f := MemberBalance.MemberName) hndmb
    rcases hnz.lt_or_lt with hneg | hpos
    · -- the tracked member owes money
      have hmemD : (p, -b.NetBalance) ∈ Dl := by
        rw [hDl]
        exact List.mem_map.mpr ⟨b, List.mem_filter.mpr ⟨hbmem, by simpa using hneg⟩,
          by rw [hbname]⟩
      have hpnotC : p ∉ Cl.map Prod.fst := by
        rw [hCfst]
        intro hp
        obtain ⟨b', hb', hb'name⟩ := List.mem_map.mp hp
        have hb'mem := (List.mem_filter.mp hb').1
        have hb'pos : 0 < b'.NetBalance := by simpa using (List.mem_filter.mp hb').2
        have hbb : b' = b := hinj hb'mem hbmem (by rw [hb'name, hbname])
        rw [hbb] at hb'pos
        linarith
      obtain ⟨hle, hbound⟩ := settleLoop_debtor_bound (Dl.length + Cl.length) Dl Cl
        le_rfl hDpos hCpos hndD p (-b.NetBalance) hmemD
      rw [← hEeq] at hle hbound
      have hrecv : recvBy p E = 0 := by
        rw [hEeq]
        exact recvBy_settleLoop_eq_zero _ _ _ hpnotC
      have hmaxzero : max (sumMags Dl - sumMags Cl) 0 = 0 := by
        rw [hsumeq]
        simp
      rw [hmaxzero] at hbound
      unfold edgeFlow
      rw [hrecv, abs_of_nonneg (by linarith)]
      linarith
    · -- the tracked member is owed money
      have hmemC : (p, b.NetBalance) ∈ Cl := by
        rw [hCl]
        exact List.mem_map.mpr ⟨b, List.mem_filter.mpr ⟨hbmem, by simpa using hpos⟩,
          by rw [hbname]⟩
      have hpnotD : p ∉ Dl.map Prod.fst := by
        rw [hDfst]
        intro hp
        obtain ⟨b', hb', hb'name⟩ := List.mem_map.mp hp
        have hb'mem := (List.mem_filter.mp hb').1
        have hb'neg : b'.NetBalance < 0 := by simpa using (List.mem_filter.mp hb').2
        have hbb : b' = b := hinj hb'mem hbmem (by rw [hb'name, hbname])
        rw [hbb] at hb'neg
        linarith
      obtain ⟨hle, hbound⟩ := settleLoop_creditor_bound (Dl.length + Cl.length) Dl Cl
        le_rfl hDpos hCpos hndC p b.NetBalance hmemC
      rw [← hEeq] at hle hbound
      have hpaid : paidBy p E = 0 := by
        rw [hEeq]
        exact paidBy_settleLoop_eq_zero _ _ _ hpnotD
      have hmaxzero : max (sumMags Cl - sumMags Dl) 0 = 0 := by
        rw [hsumeq]
        simp
      rw [hmaxzero] at hbound
      unfold edgeFlow
      rw [hpaid, abs_of_nonpos (by linarith)]
      linarith

/-- C4, counterexample: with a bill whose itemized amounts exceed its subtotal
the net balances do not sum to zero, the creditors run out before the debtor
is settled, and member B's edge flow (−30) misses their net balance (−40) by
10, far beyond the 0.01 epsilon. -/
theorem groupBalances_debt_conservation_cex :
    (CalculateGroupBalances [⟨30, 30, "A", [⟨"X", 40, ["B"]⟩], ["A", "B"]⟩] []).map
        (fun r => (netOf r.1 "B", edgeFlow "B" r.2)) = .ok (-40, -30) ∧
    ¬(|(-30 : ℚ) - (-40)| ≤ 1 / 100) ∧ ((-40 : ℚ) ≠ 0) := by
  refine ⟨?_, by norm_num, by norm_num⟩
  norm_num +decide [Except.map, CalculateGroupBalances, processBills, processBill,
    CalculateSplit, itemizedStage, applyItem, initSplits, setKey, hasKey, updateKey,
    emptySplit, processSettlements, computeNet, ensureBal, addPaid, addOwed, findBal,
    settle, netOf, edgeFlow, recvBy, paidBy]

/-- Witness for `groupBalances_debt_conservation` at the one-bill
Alice-pays-100 scenario. -/
theorem groupBalances_debt_conservation_witness :
    |edgeFlow "Bob" [⟨"Bob", "Alice", 50⟩] -
        (MemberBalance.mk "Bob" (-50) 0 50).NetBalance| ≤
      (1 / 100) * ((([⟨"Alice", 50, 100, 50⟩, ⟨"Bob", -50, 0, 50⟩] :
        List MemberBalance).length : ℚ) + 1) :=
  groupBalances_debt_conservation [⟨100, 100, "Alice", [], ["Alice", "Bob"]⟩] []
    [⟨"Alice", 50, 100, 50⟩, ⟨"Bob", -50, 0, 50⟩] [⟨"Bob", "Alice", 50⟩]
    "Bob" ⟨"Bob", -50, 0, 50⟩
    (by norm_num +decide [CalculateGroupBalances, processBills, processBill,
      CalculateSplit, initSplits, setKey, hasKey, emptySplit, processSettlements,
      computeNet, ensureBal, addPaid, addOwed, findBal, settle])
    (by norm_num [netSum])
    (by norm_num +decide [findBal])
    (by norm_num)

end Splitwiser
